import Mathlib

/-!
Shallow embedding of `fairscale/optim/oss.py` (class `OSS`), the sharded
optimizer wrapper. Parameters are modelled as records carrying an identity,
a device id, flattened integer contents (so `numel` is the length), the
trainable flag, and an optional gradient. Python dictionaries keyed by
strings or ints are modelled as association lists with in-place overwrite
semantics; tensors are lists of integers; collective communication calls
are modelled as explicit event/trace values. Floating point numerics
(learning rates, gradient norms, losses) are out of scope: hyperparameter
values are abstracted to `Int` and the local optimizer's update rule is a
parameter of the theorems, exactly as `OSS` itself treats the wrapped
optimizer as a black box.
-/

namespace FairscaleOSS

/-- A model parameter, as `OSS` sees it: an identity (`pid`, standing for the
Python object identity), the device it lives on, its flattened backing data
(`torch.Tensor` contents; `numel` is `data.length`), its `requires_grad`
flag, and its `.grad` field (`none` models `grad is None`). -/
structure Param where
  pid : Nat
  device : Nat
  data : List Int
  requiresGrad : Bool
  grad : Option (List Int)
deriving DecidableEq, Repr

/-- `param.numel()` -/
def Param.numel (p : Param) : Nat := p.data.length

/-- `param.grad is not None` -/
def Param.hasGrad (p : Param) : Bool := p.grad.isSome

/-- One entry of `self.param_groups`: the non-`"params"` hyperparameter keys
(an ordered string-keyed dict, values abstracted to `Int`) plus the ordered
parameter list stored under the `"params"` key. -/
structure HGroup where
  hyper : List (String × Int)
  params : List Param
deriving DecidableEq, Repr

/-- Python `d[k]` lookup on a string-keyed dict (first matching entry;
a well-formed dict has unique keys). -/
def dictGet? (d : List (String × Int)) (k : String) : Option Int :=
  (d.find? (fun e => e.1 == k)).map (·.2)

/-- Python `d[k] = v`: overwrite in place if the key exists (keeping its
position), otherwise append a new entry. -/
def dictSet (d : List (String × Int)) (k : String) (v : Int) : List (String × Int) :=
  if (d.find? (fun e => e.1 == k)).isSome then
    d.map (fun e => if e.1 == k then (k, v) else e)
  else d ++ [(k, v)]

/-! ## Partitioner: `OSS.partition_parameters` (oss.py lines 134-167) -/

/-- Python `min(sizes)` for a nonempty list (`min` of `[]` raises; the
value on `[]` here is junk, all uses have `world_size ≥ 1`). -/
def pyMin : List Nat → Nat
  | [] => 0
  | a :: t => t.foldl Nat.min a

/-- Python `sizes.index(v)`: index of the first occurrence. -/
def pyIndex (l : List Nat) (v : Nat) : Nat := l.findIdx (fun x => x == v)

/-- `rank = sizes.index(min(sizes))` — the rank that receives the next
parameter. -/
def chooseRank (sizes : List Nat) : Nat := pyIndex sizes (pyMin sizes)

/-- Running state while partitioning one group: `param_lists` (per-rank
parameter lists of the current group) and `sizes` (the per-rank running
weights, carried across groups). -/
structure PartAcc where
  lists : List (List Param)
  sizes : List Nat
deriving DecidableEq, Repr

/-- The body of the inner loop of `partition_parameters`: append `p` to the
rank with the smallest running weight; a trainable parameter adds
`p.numel()` to that rank's weight, a frozen one adds `1`. -/
def assignParam (acc : PartAcc) (p : Param) : PartAcc :=
  let r := chooseRank acc.sizes
  { lists := acc.lists.set r ((acc.lists.getD r []) ++ [p])
    sizes := acc.sizes.set r ((acc.sizes.getD r 0) + (if p.requiresGrad then p.numel else 1)) }

/-- `for rank, params in enumerate(param_lists): _partition_parameters[rank].append(
copy of the group with "params" := params)` — append this group's per-rank
slice (hyperparameters copied) to each rank's group list. -/
def appendGroupToRanks (hy : List (String × Int)) :
    List (List HGroup) → List (List Param) → List (List HGroup)
  | acc, [] => acc
  | [], _ => []
  | a :: acc, l :: ls => (a ++ [⟨hy, l⟩]) :: appendGroupToRanks hy acc ls

/-- The outer loop of `partition_parameters` over `self.param_groups`,
threading the per-rank weights `sizes` across groups. -/
def partitionAux : List HGroup → List (List HGroup) → List Nat → List (List HGroup)
  | [], acc, _ => acc
  | g :: gs, acc, sizes =>
    let r := g.params.foldl assignParam ⟨List.replicate sizes.length [], sizes⟩
    partitionAux gs (appendGroupToRanks g.hyper acc r.lists) r.sizes

/-- `OSS.partition_parameters()`: the greedy partition of the param groups
across `world_size` ranks (the cache in the source only memoizes this pure
computation). Element `r` of the result is rank `r`'s param group list. -/
def partition_parameters (ws : Nat) (groups : List HGroup) : List (List HGroup) :=
  partitionAux groups (List.replicate ws []) (List.replicate ws 0)

/-! Spec-side greedy partitioner, for the refinement claim about the greedy
rule. It is written from the spec's words: "assigns each parameter to the
rank with currently minimal weight, ties broken by lowest rank index". -/

/-- Written from the spec, not the source: the first rank index whose
running weight is less than or equal to every rank's weight — i.e. the
minimal-weight rank with ties broken in favor of the lowest index. -/
def specMinRank (w : List Nat) : Nat :=
  w.findIdx (fun x => w.all (fun y => decide (x ≤ y)))

/-- Spec-side analogue of `assignParam`, using `specMinRank`. -/
def assignParamSpec (acc : PartAcc) (p : Param) : PartAcc :=
  let r := specMinRank acc.sizes
  { lists := acc.lists.set r ((acc.lists.getD r []) ++ [p])
    sizes := acc.sizes.set r ((acc.sizes.getD r 0) + (if p.requiresGrad then p.numel else 1)) }

/-- Spec-side analogue of `partitionAux`. -/
def partitionSpecAux : List HGroup → List (List HGroup) → List Nat → List (List HGroup)
  | [], acc, _ => acc
  | g :: gs, acc, sizes =>
    let r := g.params.foldl assignParamSpec ⟨List.replicate sizes.length [], sizes⟩
    partitionSpecAux gs (appendGroupToRanks g.hyper acc r.lists) r.sizes

/-- Spec-side greedy partition (the spec's description of §4.1). -/
def partitionSpec (ws : Nat) (groups : List HGroup) : List (List HGroup) :=
  partitionSpecAux groups (List.replicate ws []) (List.replicate ws 0)

/-- The multiset of parameters held by a list of per-rank parameter lists. -/
def msum (ls : List (List Param)) : Multiset Param :=
  (ls.map (fun l => (l : Multiset Param))).sum

/-- The multiset union, over all ranks, of the parameters of a partition
(each rank contributes all parameters of all its groups). -/
def rankMsum (acc : List (List HGroup)) : Multiset Param :=
  (acc.map (fun rgs => (((rgs.map (·.params)).flatten : List Param) : Multiset Param))).sum

/-! ## Reverse index `OSS.param_to_rank` and the bucket capacity
(`OSS.__init__`, oss.py lines 113-115) -/

/-- The (param, rank) pairs inserted into the `self._param_rank` dict, in
source order: for each rank, for each of its groups, for each param. -/
def paramToRankList (ws : Nat) (groups : List HGroup) : List (Param × Nat) :=
  ((partition_parameters ws groups).enum.map
    (fun e => ((e.2.map (·.params)).flatten.map (fun p => (p, e.1))))).flatten

/-- The key list of a Python dict built by successive insertion: first
occurrence keeps its position, re-insertion only overwrites the value. -/
def dictKeysParams (l : List (Param × Nat)) : List Param :=
  l.foldl (fun acc e => if e.1 ∈ acc then acc else acc ++ [e.1]) []

/-- `self.param_to_rank[param]`: Python dict lookup; later insertions
overwrite earlier ones, so the last matching pair wins. -/
def paramRankOf (ws : Nat) (groups : List HGroup) (p : Param) : Nat :=
  (((paramToRankList ws groups).reverse.find? (fun e => e.1 == p)).map (·.2)).getD 0

/-- `model_size = sum([p.numel() for p in self.param_to_rank.keys()])`. -/
def modelSizeOf (ws : Nat) (groups : List HGroup) : Nat :=
  ((dictKeysParams (paramToRankList ws groups)).map (·.numel)).sum

/-- `self.bucket_size = min(broadcast_buffer_size, model_size)`. -/
def bucketSizeOf (cfg ws : Nat) (groups : List HGroup) : Nat :=
  min cfg (modelSizeOf ws groups)

/-- Written from the spec, not the source: the total element count of the
trainable parameters only (what the claim says the capacity is bounded by). -/
def trainableSizeOf (groups : List HGroup) : Nat :=
  (((groups.map (·.params)).flatten.filter (·.requiresGrad)).map (·.numel)).sum

/-- The total element count of all parameters, trainable or not. -/
def totalSizeOf (groups : List HGroup) : Nat :=
  ((groups.map (·.params)).flatten.map (·.numel)).sum

/-! ## Parameter index: `OSS.per_device_params` (oss.py lines 169-191) -/

/-- Stable insertion into an ascending-by-`numel` list: the new element goes
after all existing elements of smaller or equal size, so the overall sort is
stable, like Python's `list.sort(key=lambda x: x.numel())`. -/
def insertSorted (p : Param) : List Param → List Param
  | [] => [p]
  | q :: t => if q.numel ≤ p.numel then q :: insertSorted p t else p :: q :: t

/-- Stable ascending sort by element count. -/
def sortByNumel (l : List Param) : List Param :=
  l.foldl (fun acc p => insertSorted p acc) []

/-- `self._per_device_params[device][rank] += [param]`, creating the device
entry (`world_size` empty rank lists) on first sight of the device. -/
def addParamToDevice (ws : Nat) (acc : List (Nat × List (List Param))) (dev rank : Nat)
    (p : Param) : List (Nat × List (List Param)) :=
  if (acc.find? (fun e => e.1 == dev)).isSome then
    acc.map (fun e => if e.1 == dev then (e.1, e.2.set rank ((e.2.getD rank []) ++ [p])) else e)
  else acc ++ [(dev, (List.replicate ws []).set rank [p])]

/-- `OSS.per_device_params`: device → rank → that rank's owned parameters on
that device, finally sorted ascending by element count. Devices appear in
first-appearance order of the global parameter walk. -/
def perDeviceParams (ws : Nat) (groups : List HGroup) : List (Nat × List (List Param)) :=
  let raw := (groups.map (·.params)).flatten.foldl
    (fun acc p => addParamToDevice ws acc p.device (paramRankOf ws groups p) p) []
  raw.map (fun e => (e.1, e.2.map sortByNumel))

/-! ## Bucket allocator: `OSS._setup_bucket_strategy` (oss.py lines 611-657) -/

/-- Errors raised by the Python code while rebuilding buckets:
`copyMismatch` models the `RuntimeError` torch raises when
`bucket[offset:offset_next].copy_(param.data.flatten())` is given a source
whose element count exceeds the (clamped) destination slice, and the two
`missing` cases model `KeyError`/`IndexError` on `self.buckets[device][rank]`. -/
inductive SetupError
  | copyMismatch
  | missingDevice
  | missingBucket
deriving DecidableEq, Repr

/-- `bucket[offset : offset + xs.length].copy_(xs)`: succeeds (writing `xs`
at that slice) only when the slice really has `xs.length` elements. -/
def writeSlice (buf : List Int) (off : Nat) (xs : List Int) : Except SetupError (List Int) :=
  if off + xs.length ≤ buf.length then
    .ok (buf.take off ++ xs ++ buf.drop (off + xs.length))
  else .error .copyMismatch

/-- Mutable state of the per-(device, rank) walk: the running `offset`, the
classification flags appended so far (`self.should_bucket_param`), the bucket
buffer contents, and the number of buckets counted (`offset == 0` check). -/
structure WalkState where
  offset : Nat
  flags : List Bool
  buf : List Int
  handles : Nat
deriving DecidableEq, Repr

/-- One iteration of the parameter loop in `_setup_bucket_strategy`: bucket
the parameter iff it is trainable and `offset + numel < bucket_size`
(strict); on bucketing, copy its data into `[offset, offset+numel)`, count
the bucket once (when `offset == 0`), and advance the offset. The re-alias
of `param.data` onto the bucket slice leaves the value contents unchanged
and is recorded by the flag. -/
def bucketStep (cap : Nat) (st : WalkState) (p : Param) : Except SetupError WalkState :=
  if p.requiresGrad && decide (st.offset + p.numel < cap) then
    (writeSlice st.buf st.offset p.data).map (fun buf =>
      { offset := st.offset + p.numel
        flags := st.flags ++ [true]
        buf := buf
        handles := st.handles + (if st.offset = 0 then 1 else 0) })
  else .ok { st with flags := st.flags ++ [false] }

/-- The parameter loop of `_setup_bucket_strategy` for one (device, rank)
pair. -/
def walkParams (cap : Nat) (ps : List Param) (st : WalkState) : Except SetupError WalkState :=
  ps.foldlM (bucketStep cap) st

/-- Result of rebuilding all pairs of one device: flags appended in order,
the rebuild of each rank's bucket (truncated by `resize_(offset)` to its
used length), and the number of non-empty buckets counted. -/
structure SetupOut where
  flags : List Bool
  row : List (List Int)
  nBuckets : Nat
deriving DecidableEq, Repr

/-- The `for dst_rank, params in enumerate(per_rank_params)` loop of
`_setup_bucket_strategy` for one device: walk each rank's sorted parameter
list against that rank's bucket, then truncate the bucket to the final
offset. -/
def setupDevice (cap : Nat) : List (List Param) → List (List Int) → Except SetupError SetupOut
  | [], row => .ok ⟨[], row, 0⟩
  | _ :: _, [] => .error .missingBucket
  | ps :: rls, buf :: row => do
    let w ← walkParams cap ps ⟨0, [], buf, 0⟩
    let r ← setupDevice cap rls row
    .ok ⟨w.flags ++ r.flags, (w.buf.take w.offset) :: r.row, w.handles + r.nBuckets⟩

/-- State of the wrapper that the bucket allocator and the facade mutators
touch: the public `param_groups`, the local optimizer's `param_groups`
(this rank's shard), the bucket capacity fixed at construction, the
per-device bucket buffers, the classification list
`self.should_bucket_param`, `self._max_work_handles`, and the pending work
handle queue. -/
structure FacadeState where
  paramGroups : List HGroup
  optimGroups : List HGroup
  bucketSize : Nat
  buckets : List (Nat × List (List Int))
  shouldBucketParam : List Bool
  maxWorkHandles : Int
deriving DecidableEq, Repr

/-- The device loop of `_setup_bucket_strategy`: walk each device of the
parameter index against its bucket row (`self.buckets[device]`), updating
the stored rows. -/
def setupDevices (cap : Nat) :
    List (Nat × List (List Param)) → List (Nat × List (List Int)) →
    Except SetupError (List Bool × List (Nat × List (List Int)) × Nat)
  | [], buckets => .ok ([], buckets, 0)
  | (dev, rls) :: rest, buckets =>
    match buckets.find? (fun e => e.1 == dev) with
    | none => .error .missingDevice
    | some entry => do
      let d ← setupDevice cap rls entry.2
      let updated := buckets.map (fun e => if e.1 == dev then (e.1, d.row) else e)
      let r ← setupDevices cap rest updated
      .ok (d.flags ++ r.1, r.2.1, d.nBuckets + r.2.2)

/-- `OSS._setup_bucket_strategy()`: re-derive the parameter index from the
current `param_groups`, walk every (device, rank) pair, APPEND the new
classification flags to the existing `self.should_bucket_param` (the source
never clears the list), and recompute `self._max_work_handles` as the
number of non-empty buckets plus the number of `False` entries in the whole
(old ++ new) classification list. -/
def setupBucketStrategy (ws : Nat) (s : FacadeState) : Except SetupError FacadeState := do
  let pdp := perDeviceParams ws s.paramGroups
  let out ← setupDevices s.bucketSize pdp s.buckets
  let sbp := s.shouldBucketParam ++ out.1
  .ok { s with buckets := out.2.1
               shouldBucketParam := sbp
               maxWorkHandles := (out.2.2 : Int) + ((sbp.filter (fun b => !b)).length : Int) }

/-- `OSS.__init__` (the parts the claims depend on): build the local
optimizer from this rank's partition slice, compute
`bucket_size = min(broadcast_buffer_size, model_size)`, allocate one
zero-filled buffer of that capacity per (device, rank), and run the bucket
setup once. -/
def initOSS (ws rank cfg : Nat) (groups : List HGroup) : Except SetupError FacadeState :=
  let optimGroups := (partition_parameters ws groups).getD rank []
  let cap := bucketSizeOf cfg ws groups
  let pdp := perDeviceParams ws groups
  let buckets := pdp.map (fun e => (e.1, e.2.map (fun _ => List.replicate cap (0 : Int))))
  setupBucketStrategy ws
    { paramGroups := groups
      optimGroups := optimGroups
      bucketSize := cap
      buckets := buckets
      shouldBucketParam := []
      maxWorkHandles := -1 }

/-! ## Facade mutator: `OSS.add_param_group` (oss.py lines 510-535) -/

/-- The pure part of `add_param_group` before the bucket rebuild: append the
group to the public `param_groups`, drop the partition/index caches (here:
recompute from scratch), and append the last repartitioned local group to
the local optimizer iff the repartition has exactly one more local group
than the local optimizer currently holds. -/
def addParamGroupCore (ws rank : Nat) (s : FacadeState) (g : HGroup) : FacadeState :=
  let pgs := s.paramGroups ++ [g]
  let localPGs := (partition_parameters ws pgs).getD rank []
  if localPGs.length = s.optimGroups.length + 1 then
    { s with paramGroups := pgs, optimGroups := s.optimGroups ++ [localPGs.getLastD ⟨[], []⟩] }
  else
    { s with paramGroups := pgs }

/-- `OSS.add_param_group` (after construction): the pure part followed by
`self._setup_bucket_strategy()`. -/
def addParamGroup (ws rank : Nat) (s : FacadeState) (g : HGroup) : Except SetupError FacadeState :=
  setupBucketStrategy ws (addParamGroupCore ws rank s g)

/-! Spec-side description of the per-pair bucket walk (§4.3 of the spec),
for the refinement claim about bucket assignment. -/

/-- Output of the spec-side walk: the bucketed/non-bucketed flags, the data
blocks of the bucketed parameters in walk order, and the final offset. -/
structure WalkSpecOut where
  flags : List Bool
  datas : List (List Int)
  final : Nat
deriving DecidableEq, Repr

/-- Written from the spec, not the source: walking the parameters with a
running offset, a parameter is bucketed iff it is trainable and
`offset + size < capacity` (strict); a bucketed parameter contributes its
data block and advances the offset by its size. -/
def bucketSpecWalk (cap : Nat) : List Param → Nat → WalkSpecOut
  | [], off => ⟨[], [], off⟩
  | p :: ps, off =>
    if p.requiresGrad && decide (off + p.numel < cap) then
      let r := bucketSpecWalk cap ps (off + p.numel)
      ⟨true :: r.flags, p.data :: r.datas, r.final⟩
    else
      let r := bucketSpecWalk cap ps off
      ⟨false :: r.flags, r.datas, r.final⟩

/-! ## Broadcast coordinator: `OSS._broadcast_params`,
`OSS._consume_work_handles` (oss.py lines 559-602) and `OSS.step`
(lines 208-232) -/

/-- One asynchronous broadcast issued by `_broadcast_params`: either a
direct (non-bucketed) parameter broadcast or a bucket buffer broadcast,
tagged with its global source rank. -/
inductive WorkItem
  | direct (pid : Nat) (src : Nat)
  | bucket (device : Nat) (src : Nat)
deriving DecidableEq, Repr

/-- `OSS._consume_work_handles`: pop from the head and block on every handle
until the queue is empty (callbacks are `None` on the `step` path). -/
def consumeWorkHandles : List WorkItem → List WorkItem
  | [] => []
  | _ :: t => consumeWorkHandles t

/-- The direct-broadcast part of the inner loop of `_broadcast_params` for
one rank's parameter list: a broadcast per parameter whose
`should_bucket_param[i_param]` flag is false, with the global counter
`i_param` advancing over every parameter. -/
def directItemsForRank (gro : Nat → Nat) (src : Nat) (flags : List Bool) :
    List Param → Nat → List WorkItem
  | [], _ => []
  | p :: ps, i =>
    (if flags.getD i false then [] else [WorkItem.direct p.pid (gro src)])
      ++ directItemsForRank gro src flags ps (i + 1)

/-- The per-device loop of `_broadcast_params`: for each source rank, the
direct broadcasts of its non-bucketed parameters followed by one broadcast
of its bucket buffer; returns the issued items and the advanced `i_param`
counter. -/
def itemsForDevice (gro : Nat → Nat) (dev : Nat) (flags : List Bool) :
    List (List Param) → Nat → Nat → List WorkItem × Nat
  | [], _, i => ([], i)
  | ps :: rest, src, i =>
    let d := directItemsForRank gro src flags ps i
    let r := itemsForDevice gro dev flags rest (src + 1) (i + ps.length)
    (d ++ [WorkItem.bucket dev (gro src)] ++ r.1, r.2)

/-- The device loop of `_broadcast_params` over the parameter index. -/
def itemsForDevices (gro : Nat → Nat) (flags : List Bool) :
    List (Nat × List (List Param)) → Nat → List WorkItem
  | [], _ => []
  | (dev, rls) :: rest, i =>
    let d := itemsForDevice gro dev flags rls 0 i
    d.1 ++ itemsForDevices gro flags rest d.2

/-- `OSS._sync_param_groups(local_to_global=False)` on one group pair:
for every key of the local group other than `"params"`, pull the public
group's value when the public group has that key. -/
def syncDownGroup (g l : List (String × Int)) : List (String × Int) :=
  l.foldl (fun acc kv =>
    if kv.1 == "params" then acc
    else match dictGet? g kv.1 with
      | some v => dictSet acc kv.1 v
      | none => acc) l

/-- `OSS._sync_param_groups(local_to_global=True)` on one group pair: copy
every non-`"params"` key of the local group into the public group. -/
def syncUpGroup (g l : List (String × Int)) : List (String × Int) :=
  l.foldl (fun acc kv => if kv.1 == "params" then acc else dictSet acc kv.1 kv.2) g

/-- `zip(self.param_groups, self.optim.param_groups)` with the global→local
key sync applied to each pair (locals beyond the zip are untouched). -/
def syncDownGroups : List HGroup → List HGroup → List HGroup
  | _, [] => []
  | [], ls => ls
  | g :: gs, l :: ls => { l with hyper := syncDownGroup g.hyper l.hyper } :: syncDownGroups gs ls

/-- The local→global direction: the public groups with each zipped local
group's keys copied in. -/
def syncUpGroups : List HGroup → List HGroup → List HGroup
  | [], _ => []
  | gs, [] => gs
  | g :: gs, l :: ls => { g with hyper := syncUpGroup g.hyper l.hyper } :: syncUpGroups gs ls

/-- `OSS.step(closure)`. The wrapped local optimizer is abstract, exactly as
in the source: `f` consumes the local internal state and the (already
synced) local param groups and returns the new internal state, the possibly
key-extended local groups, and the loss. `step` syncs the public groups
into the local ones, runs `f`, issues all broadcasts
(`_broadcast_params`), drains the whole work-handle queue, syncs the local
keys back out, and returns `f`'s loss. -/
def stepOSS {σ L : Type} (ws : Nat) (gro : Nat → Nat)
    (f : σ → List HGroup → σ × List HGroup × L)
    (s : FacadeState) (st0 : σ) (queue : List WorkItem) :
    FacadeState × σ × L × List WorkItem :=
  let og1 := syncDownGroups s.paramGroups s.optimGroups
  let t := f st0 og1
  let pdp := perDeviceParams ws s.paramGroups
  let items := itemsForDevices gro s.shouldBucketParam pdp 0
  let queue2 := consumeWorkHandles (queue ++ items)
  let pgs := syncUpGroups s.paramGroups t.2.1
  ({ s with paramGroups := pgs, optimGroups := t.2.1 }, t.1, t.2.2, queue2)

/-! ## `OSS.clip_grad_norm` (oss.py lines 234-304) -/

/-- The `norm_type` argument: infinity or a finite p (the numeric value of
a finite p does not matter for the claims settled here). -/
inductive NormType
  | inf
  | finite (p : Nat)
deriving DecidableEq, Repr

/-- The exceptions the degenerate (empty local shard) case raises:
`emptyMax` models Python's `ValueError` from `max()` on an empty sequence,
`emptyStack` models torch's `RuntimeError` from `torch.stack([])`. -/
inductive ClipError
  | emptyMax
  | emptyStack
deriving DecidableEq, Repr

/-- Collective calls issued by `clip_grad_norm`. -/
inductive CommEvent
  | allReduceMax
  | allReduceSum
deriving DecidableEq, Repr

/-- Python `max(...)` over a list: raises on the empty sequence. -/
def pyMax : List Int → Except ClipError Int
  | [] => .error .emptyMax
  | a :: t => .ok (t.foldl max a)

/-- `torch.stack([...])`: raises on an empty list of tensors. -/
def torchStack (l : List Int) : Except ClipError (List Int) :=
  if l.isEmpty then .error .emptyStack else .ok l

/-- Stand-in for the per-parameter scalar `p.grad.detach().abs().max()` /
`torch.norm(p.grad, ...)`: an integer summary of the gradient (the numeric
value is irrelevant to the claims settled here, only list emptiness is). -/
def tensorAbsMax (l : List Int) : Int :=
  (l.map (fun x => (x.natAbs : Int))).foldl max 0

/-- The grad-bearing parameters of this rank's shard, concatenated across
devices in parameter-index order — the `itertools.chain(filter(...))` at
the top of `clip_grad_norm`. -/
def localGradParams (ws rank : Nat) (groups : List HGroup) : List Param :=
  ((perDeviceParams ws groups).map (fun dr => (dr.2.getD rank []).filter (·.hasGrad))).flatten

/-- `OSS.clip_grad_norm` up to and including the cross-rank reduction,
returning the trace of collective calls issued and either success or the
exception raised. The local norm is computed first (`max(...)` over the
local per-parameter maxima for the infinity norm, `torch.stack` of the
local per-parameter norms for finite p); only if that succeeds is the
`all_reduce` issued. The floating-point norm arithmetic and the in-place
scaling are abstracted; the control flow and the emptiness behavior are
faithful. -/
def clipGradNorm (ws rank : Nat) (groups : List HGroup) (nt : NormType) :
    List CommEvent × Except ClipError Unit :=
  let lp := localGradParams ws rank groups
  match nt with
  | .inf =>
    match pyMax (lp.map (fun p => tensorAbsMax (p.grad.getD []))) with
    | .error e => ([], .error e)
    | .ok _ => ([CommEvent.allReduceMax], .ok ())
  | .finite _ =>
    match torchStack (lp.map (fun p => tensorAbsMax (p.grad.getD []))) with
    | .error e => ([], .error e)
    | .ok _ => ([CommEvent.allReduceSum], .ok ())

/-! ## State consolidation: `OSS._broadcast_state_dict` and
`OSS._collect_sharded_states` (oss.py lines 337-418) -/

/-- One `broadcast_object_list` call as issued by a single rank: its source
global rank, and the object this rank supplies as the source — `some` for a
real shard payload, `none` for the dummy `[0]` sync object (or when this
rank is not the source and merely participates). -/
structure BcastCall (α : Type) where
  src : Nat
  sent : Option α
deriving DecidableEq, Repr

/-- The `for rank in range(self.world_size)` loop of
`_broadcast_state_dict` (a non-recipient rank): at its own turn it
broadcasts its CPU-copied shard from its own global rank; at every other
turn it issues and discards a broadcast sourced at that rank. -/
def broadcastStateDictAux {α : Type} (gro : Nat → Nat) (selfRank : Nat) (cpuState : α) :
    List Nat → List (BcastCall α) → List (BcastCall α)
  | [], acc => acc
  | r :: rs, acc =>
    broadcastStateDictAux gro selfRank cpuState rs
      (acc ++ [if r = selfRank then ⟨gro selfRank, some cpuState⟩ else ⟨gro r, none⟩])

/-- `OSS._broadcast_state_dict`: the full trace of broadcast calls issued by
a non-recipient rank. `toCpu` models `recursive_copy_to_device(..., cpu)`. -/
def broadcastStateDict {α : Type} (ws selfRank : Nat) (gro : Nat → Nat) (toCpu : α → α)
    (localState : α) : List (BcastCall α) :=
  broadcastStateDictAux gro selfRank (toCpu localState) (List.range ws) []

/-- What `_collect_sharded_states` produces on the recipient: the collected
per-rank states in rank order, and the trace of broadcast calls issued. -/
structure CollectOut (α : Type) where
  states : List α
  calls : List (BcastCall α)
deriving DecidableEq, Repr

/-- The `for rank in range(self.world_size)` loop of
`_collect_sharded_states` (the recipient): at its own turn it appends its
own CPU-copied shard and broadcasts the dummy sync object; at every other
turn it issues a broadcast sourced at that rank and appends the received
shard, CPU-copied (`recvFrom r` is the object rank `r` broadcasts). -/
def collectShardedStatesAux {α : Type} (gro : Nat → Nat) (selfRank : Nat) (toCpu : α → α)
    (localState : α) (recvFrom : Nat → α) :
    List Nat → CollectOut α → CollectOut α
  | [], acc => acc
  | r :: rs, acc =>
    collectShardedStatesAux gro selfRank toCpu localState recvFrom rs
      (if r = selfRank then
        ⟨acc.states ++ [toCpu localState], acc.calls ++ [⟨gro selfRank, none⟩]⟩
      else
        ⟨acc.states ++ [toCpu (recvFrom r)], acc.calls ++ [⟨gro r, none⟩]⟩)

/-- `OSS._collect_sharded_states`. -/
def collectShardedStates {α : Type} (ws selfRank : Nat) (gro : Nat → Nat) (toCpu : α → α)
    (localState : α) (recvFrom : Nat → α) : CollectOut α :=
  collectShardedStatesAux gro selfRank toCpu localState recvFrom (List.range ws) ⟨[], []⟩

/-! ## State dict round trip: `OSS.state_dict` (oss.py lines 420-459) and
`OSS.load_state_dict` (lines 472-508) -/

/-- A packed optimizer state dict (`torch.optim.Optimizer.state_dict()`
shape): per-parameter state blobs keyed by packed integer ids, and the
param groups with their `"params"` entry replaced by packed ids. Blobs are
abstracted to `Nat` tags. -/
structure LocalSD where
  state : List (Nat × Nat)
  groupsParams : List (List Nat)
  groupsHyper : List (List (String × Int))
deriving DecidableEq, Repr

/-- `torch.optim.Optimizer.state_dict()` on the local optimizer: parameters
are enumerated across the groups in order and replaced by their index; the
state dict is re-keyed by those indices (`optimState` is `self.state` in
its insertion order). -/
def packLocalStateDict (groups : List HGroup) (optimState : List (Param × Nat)) : LocalSD :=
  let allParams := (groups.map (·.params)).flatten
  { state := optimState.map (fun e => (allParams.findIdx (fun q => q == e.1), e.2))
    groupsParams := groups.map (fun g => g.params.map
      (fun p => allParams.findIdx (fun q => q == p)))
    groupsHyper := groups.map (·.hyper) }

/-- `fpg["params"].extend(pg["params"])` over zipped group lists. -/
def extendGroups : List (List Nat) → List (List Nat) → List (List Nat)
  | [], _ => []
  | a, [] => a
  | a :: gs, b :: bs => (a ++ b) :: extendGroups gs bs

/-- `OSS.state_dict()` after consolidation: the param groups of the first
collected shard, with every later shard's packed param id lists appended
group-wise, and the state blobs of all shards re-keyed by a fresh
contiguous index in (rank, within-shard) order. -/
def globalStateDict (allStates : List LocalSD) : LocalSD :=
  match allStates with
  | [] => ⟨[], [], []⟩
  | s0 :: rest =>
    { state := ((allStates.map (fun s => s.state.map (·.2))).flatten).enum
      groupsParams := rest.foldl (fun acc s => extendGroups acc s.groupsParams) s0.groupsParams
      groupsHyper := s0.groupsHyper }

/-- The Python dict comprehension `{old_id: p for old_id, p in zip(...)}`:
later pairs with an already present key overwrite the earlier value. -/
def dictInsertPairs (ps : List (Nat × Param)) : List (Nat × Param) :=
  ps.foldl (fun acc e =>
    if (acc.find? (fun x => x.1 == e.1)).isSome then
      acc.map (fun x => if x.1 == e.1 then e else x)
    else acc ++ [e]) []

/-- Lookup in the id map. -/
def lookupIdMap (d : List (Nat × Param)) (k : Nat) : Option Param :=
  (d.find? (fun e => e.1 == k)).map (·.2)

/-- `self.optim.state[param] = v` on the param-keyed local state. -/
def stateSet (st : List (Param × Nat)) (p : Param) (b : Nat) : List (Param × Nat) :=
  if (st.find? (fun e => e.1 == p)).isSome then
    st.map (fun e => if e.1 == p then (p, b) else e)
  else st ++ [(p, b)]

/-- `for fpg, pg in zip(saved_groups, self.param_groups)`: every
non-`"params"` key of each saved group overwrites the public group's key. -/
def syncSavedHyper : List (List (String × Int)) → List HGroup → List HGroup
  | _, [] => []
  | [], pgs => pgs
  | hy :: hys, pg :: pgs => { pg with hyper := syncUpGroup pg.hyper hy } :: syncSavedHyper hys pgs

/-- Result of `load_state_dict`: the local optimizer's new state mapping,
the updated public groups, and the updated local groups. -/
structure LoadOut where
  optimState : List (Param × Nat)
  paramGroups : List HGroup
  optimGroups : List HGroup
deriving DecidableEq, Repr

/-- `OSS.load_state_dict(state_dict)`: build `id_map` by zipping the saved
packed ids (chained over the saved groups) against the local optimizer's
current parameters (chained over its groups); install every saved state
entry whose key is in `id_map` onto the mapped parameter; copy the saved
groups' non-`"params"` keys into the public groups; re-sync the local
groups from the public ones. (The subsequent cache invalidation and bucket
rebuild is `setupBucketStrategy`.) -/
def loadStateDict (publicGroups optimGroups : List HGroup)
    (optimState : List (Param × Nat)) (sd : LocalSD) : LoadOut :=
  let savedIds := sd.groupsParams.flatten
  let currentParams := (optimGroups.map (·.params)).flatten
  let idMap := dictInsertPairs (savedIds.zip currentParams)
  let newState := sd.state.foldl (fun st kv =>
    match lookupIdMap idMap kv.1 with
    | some p => stateSet st p kv.2
    | none => st) optimState
  let pgs := syncSavedHyper sd.groupsHyper publicGroups
  let ogs := syncDownGroups pgs optimGroups
  ⟨newState, pgs, ogs⟩

/-! ## Decidable equality for `Except` results -/

instance {ε α : Type} [DecidableEq ε] [DecidableEq α] : DecidableEq (Except ε α) := fun x y =>
  match x, y with
  | .ok a, .ok b =>
    if h : a = b then .isTrue (by rw [h]) else .isFalse (by intro c; injection c; contradiction)
  | .error a, .error b =>
    if h : a = b then .isTrue (by rw [h]) else .isFalse (by intro c; injection c; contradiction)
  | .ok _, .error _ => .isFalse (by intro c; exact Except.noConfusion c)
  | .error _, .ok _ => .isFalse (by intro c; exact Except.noConfusion c)

/-! ## Concrete inputs used by the counterexamples and witnesses -/

/-- A trainable parameter of the given identity and element count on
device 0, with no gradient. -/
def exTrainableParam (pid sz : Nat) : Param := ⟨pid, 0, List.replicate sz 7, true, none⟩

/-- One group with a trainable 3-element parameter and a frozen 5-element
parameter. -/
def exC4Groups : List HGroup :=
  [⟨[("lr", 1)], [⟨0, 0, [1, 1, 1], true, none⟩, ⟨1, 0, [2, 2, 2, 2, 2], false, none⟩]⟩]

/-- One group with two trainable 1-element parameters (world size 1:
capacity 2, so the first parameter is bucketed and the second is not). -/
def exC6Groups : List HGroup :=
  [⟨[("lr", 1)], [⟨0, 0, [3], true, none⟩, ⟨1, 0, [4], true, none⟩]⟩]

/-- The repository's own `test_add_param_group` input: trainable sizes
`[4, 5, 2, 6, 4]` over world size 3. -/
def exC9Groups : List HGroup :=
  [⟨[("lr", 1)], [exTrainableParam 0 4, exTrainableParam 1 5, exTrainableParam 2 2,
                  exTrainableParam 3 6, exTrainableParam 4 4]⟩]

/-- The group of one trainable 3-element parameter added by
`test_add_param_group`. -/
def exC9NewGroup : HGroup := ⟨[("lr", 1)], [exTrainableParam 5 3]⟩

/-- First parameter of the round-trip example (owned by rank 0). -/
def exC1P0 : Param := ⟨0, 0, [1], true, none⟩

/-- Second parameter of the round-trip example (owned by rank 1). -/
def exC1P1 : Param := ⟨1, 0, [2], true, none⟩

/-- One group with the two round-trip parameters, world size 2. -/
def exC1Groups : List HGroup := [⟨[("lr", 1)], [exC1P0, exC1P1]⟩]

/-- The consolidated-then-flattened state dict of the round-trip example:
rank 0 holds blob `10` for its parameter, rank 1 holds blob `20` for its
parameter; consolidation collects both local state dicts in rank order and
`state_dict()` flattens them. -/
def exC1SavedSD : LocalSD :=
  globalStateDict
    [packLocalStateDict ((partition_parameters 2 exC1Groups).getD 0 []) [(exC1P0, 10)],
     packLocalStateDict ((partition_parameters 2 exC1Groups).getD 1 []) [(exC1P1, 20)]]

/-- One grad-bearing parameter, owned by rank 0 under world size 2 (so rank
1 owns no grad-bearing parameter). -/
def exC10Groups : List HGroup := [⟨[], [⟨0, 0, [1], true, some [5]⟩]⟩]

/-- The repository's own `test_sharding` input: trainable sizes
`[5, 4, 2, 6, 4, 3]` over world size 3. -/
def exShardingGroups : List HGroup :=
  [⟨[], [exTrainableParam 0 5, exTrainableParam 1 4, exTrainableParam 2 2,
         exTrainableParam 3 6, exTrainableParam 4 4, exTrainableParam 5 3]⟩]

/-- A single 2-element trainable parameter for the bucket-walk witness. -/
def exC5Param : Param := ⟨0, 0, [4, 5], true, none⟩

/-- A small wrapper state for the `step` witness: one public and one local
group over the same 1-element parameter, a 1-element bucket, one pending
work handle. -/
def exStepState : FacadeState :=
  { paramGroups := [⟨[("lr", 3), ("momentum", 0)], [exTrainableParam 0 1]⟩]
    optimGroups := [⟨[("lr", 1), ("momentum", 0)], [exTrainableParam 0 1]⟩]
    bucketSize := 1
    buckets := [(0, [[7]])]
    shouldBucketParam := [false]
    maxWorkHandles := 1 }

/-- The abstract local optimizer used by the `step` witness: bumps its
internal counter, adds a `"new_key"` hyperparameter to each of its groups,
and returns loss `7`. -/
def exStepF (st : Nat) (gs : List HGroup) : Nat × List HGroup × Int :=
  (st + 1, gs.map (fun g => { g with hyper := dictSet g.hyper "new_key" 9 }), 7)

/-! # Theorems -/

/-- C1 (counter-evidence, code bug): consolidating and flattening the state
of a world-size-2 run puts each rank's LOCAL packed ids into the flattened
`param_groups` (giving `[0, 0]`) while re-keying the state blobs globally
(`0 ↦ 10` from rank 0, `1 ↦ 20` from rank 1). Loading that dict into a
freshly constructed wrapper on rank 1 — whose single current parameter
`exC1P1` sits at flattened position 1 — zips `[0, 0]` against `[exC1P1]`,
so rank 1's parameter receives saved entry 0 (rank 0's blob `10`) instead
of its own entry 1 (blob `20`), and entry 1 is dropped. The claim's
positional correspondence (k-th saved entry to the k-th parameter) is
violated, so identical subsequent steps diverge from the original. -/
theorem load_misroutes_saved_state :
    (loadStateDict exC1Groups ((partition_parameters 2 exC1Groups).getD 1 []) []
        exC1SavedSD).optimState = [(exC1P1, 10)]
  ∧ exC1SavedSD.state = [(0, 10), (1, 20)]
  ∧ exC1SavedSD.groupsParams = [[0, 0]]
  ∧ ((partition_parameters 2 exC1Groups).getD 1 []).map (·.params) = [[exC1P1]] := by
  decide

/-- C4 (counterexample): with one trainable 3-element parameter and one
frozen 5-element parameter, the code's bucket capacity is
`min(100, 8) = 8` — the frozen parameter's elements count towards the
bound — not `min(100, 3) = 3` as the claim (capacity bounded by the
trainable element count only) would have it. -/
theorem bucket_capacity_counts_frozen_params :
    bucketSizeOf 100 1 exC4Groups ≠ min 100 (trainableSizeOf exC4Groups) := by
  decide

/-- C6 (counter-evidence, code bug): rebuilding the buckets a second time
with no intervening structural mutation does NOT reproduce the state of the
first run: `_setup_bucket_strategy` appends the fresh classification flags
to the existing `should_bucket_param` list instead of discarding it, so the
list doubles (`[true, false]` becomes `[true, false, true, false]`) and
`_max_work_handles` counts the stale entries; the bucket buffer contents
themselves are rebuilt identically. -/
theorem rerun_bucket_setup_not_idempotent :
    ((initOSS 1 0 100 exC6Groups).bind (setupBucketStrategy 1) ≠ initOSS 1 0 100 exC6Groups)
  ∧ ((initOSS 1 0 100 exC6Groups).bind (setupBucketStrategy 1)).map (·.shouldBucketParam)
      = .ok [true, false, true, false]
  ∧ (initOSS 1 0 100 exC6Groups).map (·.shouldBucketParam) = .ok [true, false]
  ∧ ((initOSS 1 0 100 exC6Groups).bind (setupBucketStrategy 1)).map (·.buckets)
      = (initOSS 1 0 100 exC6Groups).map (·.buckets)
  ∧ ((initOSS 1 0 100 exC6Groups).bind (setupBucketStrategy 1)).map (·.maxWorkHandles)
      = .ok 3
  ∧ (initOSS 1 0 100 exC6Groups).map (·.maxWorkHandles) = .ok 2 := by
  decide

/-- C9 (counter-evidence, code bug): at the repository's own
`test_add_param_group` input (trainable sizes `[4, 5, 2, 6, 4]`, world
size 3, adding a size-3 group on rank 1) the local-group append itself
behaves as claimed — the repartition yields exactly one more local group
and it is appended — but the bucket state is NOT invalidated: the five
stale classification flags are retained (the rebuild appends to them), and
the rebuild reuses rank 1's bucket buffer already truncated to 5 elements,
so copying the re-sorted shard `[3, 5]` at offsets `[3, 8)` raises a size
mismatch: `add_param_group` fails instead of re-deriving bucket state. -/
theorem add_param_group_stale_bucket_state :
    ((initOSS 3 1 10000 exC9Groups).map
        (fun s => (addParamGroupCore 3 1 s exC9NewGroup).optimGroups.map
          (fun g => g.params.map (·.pid))))
      = .ok [[1], [5]]
  ∧ ((initOSS 3 1 10000 exC9Groups).map (·.optimGroups.length)) = .ok 1
  ∧ ((initOSS 3 1 10000 exC9Groups).map
        (fun s => (addParamGroupCore 3 1 s exC9NewGroup).shouldBucketParam))
      = .ok [true, true, true, true, true]
  ∧ ((initOSS 3 1 10000 exC9Groups).bind (fun s => addParamGroup 3 1 s exC9NewGroup))
      = .error .copyMismatch := by
  decide

/-- C10: on a rank whose shard contains no grad-bearing parameter,
`clip_grad_norm` raises — `max()` over the empty sequence for the infinity
norm, `torch.stack([])` for finite p — and the trace of issued collective
calls is empty: the failure happens before any all-reduce. -/
theorem clip_raises_on_empty_shard (ws rank : Nat) (groups : List HGroup) (nt : NormType)
    (h : localGradParams ws rank groups = []) :
    clipGradNorm ws rank groups nt
      = ([], .error (match nt with | .inf => .emptyMax | .finite _ => .emptyStack)) := by
  cases nt <;> simp [clipGradNorm, h, pyMax, torchStack]

/-- C10 witness: under world size 2 with the single parameter owned by rank
0, rank 1's shard has no grad-bearing parameter, and `clip_grad_norm` on
rank 1 with the infinity norm raises with an empty collective trace. -/
theorem clip_raises_on_empty_shard_witness :
    localGradParams 2 1 exC10Groups = []
  ∧ clipGradNorm 2 1 exC10Groups .inf = ([], .error .emptyMax) :=
  ⟨by decide, clip_raises_on_empty_shard 2 1 exC10Groups .inf (by decide)⟩

/-- Closed form of the non-recipient consolidation loop. -/
theorem broadcastStateDictAux_closed {α : Type} (gro : Nat → Nat) (selfRank : Nat)
    (cpuState : α) :
    ∀ (rs : List Nat) (acc : List (BcastCall α)),
      broadcastStateDictAux gro selfRank cpuState rs acc
        = acc ++ rs.map (fun r =>
            if r = selfRank then ⟨gro selfRank, some cpuState⟩ else ⟨gro r, none⟩) := by
  intro rs
  induction rs with
  | nil => intro acc; simp [broadcastStateDictAux]
  | cons r rs ih =>
    intro acc
    simp only [broadcastStateDictAux, ih, List.map_cons, List.append_assoc,
      List.singleton_append]

/-- Closed form of the recipient consolidation loop. -/
theorem collectShardedStatesAux_closed {α : Type} (gro : Nat → Nat) (selfRank : Nat)
    (toCpu : α → α) (localState : α) (recvFrom : Nat → α) :
    ∀ (rs : List Nat) (acc : CollectOut α),
      collectShardedStatesAux gro selfRank toCpu localState recvFrom rs acc
        = ⟨acc.states ++ rs.map (fun r =>
              if r = selfRank then toCpu localState else toCpu (recvFrom r)),
           acc.calls ++ rs.map (fun r => ⟨gro r, none⟩)⟩ := by
  intro rs
  induction rs with
  | nil => intro acc; simp [collectShardedStatesAux]
  | cons r rs ih =>
    intro acc
    simp only [collectShardedStatesAux, ih, List.map_cons]
    by_cases h : r = selfRank
    · subst h; simp
    · simp [h]

/-- C7: during consolidation, every rank issues exactly `world_size`
object-broadcast calls, one per source rank, in ascending rank order
`0, 1, …, world_size − 1`. A non-recipient's trace
(`_broadcast_state_dict`) carries its own CPU-copied shard exactly at its
own turn and a discarded dummy at every other turn; the recipient
(`_collect_sharded_states`) issues the same ascending source sequence
while storing, in rank order, its own CPU-copied shard at its own turn and
the CPU-copied received shard of every other rank. -/
theorem consolidation_broadcast_pattern {α : Type} (ws selfRank : Nat) (gro : Nat → Nat)
    (toCpu : α → α) (localState : α) (recvFrom : Nat → α) :
    broadcastStateDict ws selfRank gro toCpu localState
      = (List.range ws).map (fun r =>
          if r = selfRank then ⟨gro selfRank, some (toCpu localState)⟩ else ⟨gro r, none⟩)
  ∧ collectShardedStates ws selfRank gro toCpu localState recvFrom
      = ⟨(List.range ws).map (fun r =>
            if r = selfRank then toCpu localState else toCpu (recvFrom r)),
         (List.range ws).map (fun r => ⟨gro r, none⟩)⟩ := by
  constructor
  · simp [broadcastStateDict, broadcastStateDictAux_closed]
  · simp [collectShardedStates, collectShardedStatesAux_closed]

/-- The final offset of the spec-side walk never decreases. -/
theorem bucketSpecWalk_final_ge (cap : Nat) :
    ∀ (ps : List Param) (off : Nat), off ≤ (bucketSpecWalk cap ps off).final := by
  intro ps
  induction ps with
  | nil => intro off; simp [bucketSpecWalk]
  | cons p ps ih =>
    intro off
    simp only [bucketSpecWalk]
    split
    · exact le_trans (Nat.le_add_right off p.numel) (ih (off + p.numel))
    · exact ih off

/-- The bucketed data of the spec-side walk accounts exactly for the
offset advance. -/
theorem bucketSpecWalk_flatten_length (cap : Nat) :
    ∀ (ps : List Param) (off : Nat),
      (bucketSpecWalk cap ps off).datas.flatten.length + off
        = (bucketSpecWalk cap ps off).final := by
  intro ps
  induction ps with
  | nil => intro off; simp [bucketSpecWalk]
  | cons p ps ih =>
    intro off
    simp only [bucketSpecWalk]
    split
    · simp only [List.flatten_cons, List.length_append]
      have := ih (off + p.numel)
      simp only [Param.numel] at *
      omega
    · exact ih off

/-- Unfolding of the walk on a cons cell. -/
theorem walkParams_cons (cap : Nat) (p : Param) (ps : List Param) (st : WalkState) :
    walkParams cap (p :: ps) st
      = match bucketStep cap st p with
        | .ok st2 => walkParams cap ps st2
        | .error e => .error e := by
  rw [walkParams, List.foldlM_cons]
  cases h : bucketStep cap st p <;> rfl

/-- Closed form of the per-(device, rank) parameter walk of
`_setup_bucket_strategy`, for any starting state whose buffer has exactly
the bucket capacity: it succeeds, its flags are the appended spec-side
flags, its final offset is the spec-side final offset, and its buffer is
the original one with `[offset, final)` overwritten by the concatenated
data of the bucketed parameters. -/
theorem walkParams_closed (cap : Nat) :
    ∀ (ps : List Param) (st : WalkState), st.buf.length = cap → st.offset ≤ cap →
      (walkParams cap ps st).map (fun w => (w.offset, w.flags, w.buf))
        = .ok ((bucketSpecWalk cap ps st.offset).final,
               st.flags ++ (bucketSpecWalk cap ps st.offset).flags,
               st.buf.take st.offset
                 ++ (bucketSpecWalk cap ps st.offset).datas.flatten
                 ++ st.buf.drop (bucketSpecWalk cap ps st.offset).final) := by
  intro ps
  induction ps with
  | nil =>
    intro st hlen hoff
    simp [walkParams, bucketSpecWalk, Except.map, pure, Except.pure, List.take_append_drop]
  | cons p ps ih =>
    intro st hlen hoff
    by_cases hc : p.requiresGrad && decide (st.offset + p.numel < cap)
    · have hlt : st.offset + p.numel < cap := by
        have h2 := hc
        simp only [Bool.and_eq_true, decide_eq_true_eq] at h2
        exact h2.2
      have hwrite : st.offset + p.data.length ≤ st.buf.length := by
        simp only [Param.numel] at hlt; omega
      have hstep : bucketStep cap st p
          = .ok ⟨st.offset + p.numel, st.flags ++ [true],
                 st.buf.take st.offset ++ p.data ++ st.buf.drop (st.offset + p.data.length),
                 st.handles + (if st.offset = 0 then 1 else 0)⟩ := by
        rw [bucketStep, if_pos hc, writeSlice, if_pos hwrite]
        rfl
      have hlen2 : (st.buf.take st.offset ++ p.data
          ++ st.buf.drop (st.offset + p.data.length)).length = cap := by
        simp only [List.length_append, List.length_take, List.length_drop]
        omega
      have hoff2 : st.offset + p.numel ≤ cap := le_of_lt hlt
      have hrec := ih ⟨st.offset + p.numel, st.flags ++ [true],
          st.buf.take st.offset ++ p.data ++ st.buf.drop (st.offset + p.data.length),
          st.handles + (if st.offset = 0 then 1 else 0)⟩ hlen2 hoff2
      dsimp only at hrec
      have h1 : (st.buf.take st.offset ++ p.data).length = st.offset + p.data.length := by
        simp only [List.length_append, List.length_take]
        omega
      have htake : (st.buf.take st.offset ++ p.data
          ++ st.buf.drop (st.offset + p.data.length)).take (st.offset + p.numel)
          = st.buf.take st.offset ++ p.data := by
        calc (st.buf.take st.offset ++ p.data
            ++ st.buf.drop (st.offset + p.data.length)).take (st.offset + p.numel)
            = ((st.buf.take st.offset ++ p.data)
                ++ st.buf.drop (st.offset + p.data.length)).take
                  (st.buf.take st.offset ++ p.data).length := by
              rw [h1]; rfl
          _ = st.buf.take st.offset ++ p.data := List.take_left _ _
      have hge : st.offset + p.numel
          ≤ (bucketSpecWalk cap ps (st.offset + p.numel)).final :=
        bucketSpecWalk_final_ge cap ps (st.offset + p.numel)
      have hdropf : (st.buf.take st.offset ++ p.data
          ++ st.buf.drop (st.offset + p.data.length)).drop
            (bucketSpecWalk cap ps (st.offset + p.numel)).final
          = st.buf.drop (bucketSpecWalk cap ps (st.offset + p.numel)).final := by
        obtain ⟨k, hk⟩ : ∃ k, (bucketSpecWalk cap ps (st.offset + p.numel)).final
            = (st.offset + p.data.length) + k := by
          have hnum : p.numel = p.data.length := rfl
          refine ⟨(bucketSpecWalk cap ps (st.offset + p.numel)).final
            - (st.offset + p.data.length), ?_⟩
          omega
        calc (st.buf.take st.offset ++ p.data
            ++ st.buf.drop (st.offset + p.data.length)).drop
              (bucketSpecWalk cap ps (st.offset + p.numel)).final
            = ((st.buf.take st.offset ++ p.data)
                ++ st.buf.drop (st.offset + p.data.length)).drop
                  ((st.buf.take st.offset ++ p.data).length + k) := by
              rw [h1, ← hk]
          _ = (st.buf.drop (st.offset + p.data.length)).drop k := List.drop_append k
          _ = st.buf.drop ((st.offset + p.data.length) + k) := List.drop_drop k _ _
          _ = st.buf.drop (bucketSpecWalk cap ps (st.offset + p.numel)).final := by
              rw [← hk]
      have hspec : bucketSpecWalk cap (p :: ps) st.offset
          = ⟨true :: (bucketSpecWalk cap ps (st.offset + p.numel)).flags,
             p.data :: (bucketSpecWalk cap ps (st.offset + p.numel)).datas,
             (bucketSpecWalk cap ps (st.offset + p.numel)).final⟩ := by
        simp only [bucketSpecWalk, hc, if_pos]
      rw [walkParams_cons, hstep, hspec]
      dsimp only
      rw [hrec, htake, hdropf]
      simp [List.append_assoc]
    · have hstep : bucketStep cap st p
          = .ok ⟨st.offset, st.flags ++ [false], st.buf, st.handles⟩ := by
        rw [bucketStep, if_neg hc]
      have hrec := ih ⟨st.offset, st.flags ++ [false], st.buf, st.handles⟩ hlen hoff
      dsimp only at hrec
      have hspec : bucketSpecWalk cap (p :: ps) st.offset
          = ⟨false :: (bucketSpecWalk cap ps st.offset).flags,
             (bucketSpecWalk cap ps st.offset).datas,
             (bucketSpecWalk cap ps st.offset).final⟩ := by
        simp only [bucketSpecWalk, hc, if_neg, Bool.false_eq_true, not_false_eq_true]
      rw [walkParams_cons, hstep, hspec]
      dsimp only
      rw [hrec]
      simp [List.append_assoc]

/-- C5: for a (device, rank) walk over a freshly allocated buffer of the
bucket capacity, a parameter is assigned to the bucket iff it is trainable
and `offset + numel < capacity` with the offset running over the previously
bucketed sizes (the spec-side recursion `bucketSpecWalk`); the buffer
truncated by `resize_(offset)` is exactly the concatenation of the
bucketed parameters' data blocks, placed at `[offset, offset + size)` in
walk order, and its length is exactly the final offset. -/
theorem bucket_walk_matches_spec (cap : Nat) (ps : List Param) (buf0 : List Int)
    (h : buf0.length = cap) :
    (walkParams cap ps ⟨0, [], buf0, 0⟩).map (fun w => (w.flags, w.buf.take w.offset, w.offset))
      = .ok ((bucketSpecWalk cap ps 0).flags,
             (bucketSpecWalk cap ps 0).datas.flatten,
             (bucketSpecWalk cap ps 0).final)
  ∧ (bucketSpecWalk cap ps 0).datas.flatten.length = (bucketSpecWalk cap ps 0).final := by
  have hflat : (bucketSpecWalk cap ps 0).datas.flatten.length
      = (bucketSpecWalk cap ps 0).final := by
    have := bucketSpecWalk_flatten_length cap ps 0
    omega
  refine ⟨?_, hflat⟩
  have hclosed := walkParams_closed cap ps ⟨0, [], buf0, 0⟩ h (Nat.zero_le cap)
  dsimp only at hclosed
  cases hw : walkParams cap ps ⟨0, [], buf0, 0⟩ with
  | error e => rw [hw] at hclosed; exact absurd hclosed (by simp [Except.map])
  | ok w =>
    rw [hw] at hclosed
    simp only [Except.map, Except.ok.injEq, Prod.mk.injEq, List.nil_append,
      List.take_zero] at hclosed
    obtain ⟨hoff, hflags, hbuf⟩ := hclosed
    simp only [Except.map, Except.ok.injEq, Prod.mk.injEq]
    refine ⟨hflags, ?_, hoff⟩
    rw [hbuf, hoff, ← hflat, List.take_left]

/-- C5 witness: capacity 3, one trainable 2-element parameter, fresh
3-element zero buffer — the walk buckets it, the truncated buffer is its
data, and the final offset is 2. -/
theorem bucket_walk_matches_spec_witness :
    ([(0 : Int), 0, 0].length = 3)
  ∧ ((walkParams 3 [exC5Param] ⟨0, [], [0, 0, 0], 0⟩).map
        (fun w => (w.flags, w.buf.take w.offset, w.offset))
      = .ok ((bucketSpecWalk 3 [exC5Param] 0).flags,
             (bucketSpecWalk 3 [exC5Param] 0).datas.flatten,
             (bucketSpecWalk 3 [exC5Param] 0).final)
    ∧ (bucketSpecWalk 3 [exC5Param] 0).datas.flatten.length
        = (bucketSpecWalk 3 [exC5Param] 0).final) :=
  ⟨by decide, bucket_walk_matches_spec 3 [exC5Param] [0, 0, 0] (by decide)⟩

/-- `foldl min` is below its initial value. -/
theorem foldl_min_le_init (t : List Nat) : ∀ a, t.foldl Nat.min a ≤ a := by
  induction t with
  | nil => intro a; exact le_refl a
  | cons b t ih =>
    intro a
    exact le_trans (ih (Nat.min a b)) (Nat.min_le_left a b)

/-- `foldl min` is below every list element. -/
theorem foldl_min_le_mem (t : List Nat) : ∀ a x, x ∈ t → t.foldl Nat.min a ≤ x := by
  induction t with
  | nil => intro a x hx; cases hx
  | cons b t ih =>
    intro a x hx
    cases hx with
    | head => exact le_trans (foldl_min_le_init t (Nat.min a b)) (Nat.min_le_right a b)
    | tail _ hx => exact ih (Nat.min a b) x hx

/-- `foldl min` is one of the initial value or a list element. -/
theorem foldl_min_mem (t : List Nat) : ∀ a, t.foldl Nat.min a ∈ a :: t := by
  induction t with
  | nil => intro a; exact List.mem_singleton.mpr rfl
  | cons b t ih =>
    intro a
    have h := ih (Nat.min a b)
    simp only [List.foldl_cons]
    rcases List.mem_cons.mp h with h1 | h2
    · by_cases hab : a ≤ b
      · have hmin : Nat.min a b = a := Nat.min_eq_left hab
        rw [h1, hmin]
        exact List.mem_cons_self a _
      · have hmin : Nat.min a b = b := Nat.min_eq_right (Nat.le_of_not_le hab)
        rw [h1, hmin]
        exact List.mem_cons_of_mem a (List.mem_cons_self b t)
    · exact List.mem_cons_of_mem a (List.mem_cons_of_mem b h2)

/-- `min(sizes)` is a member of a nonempty `sizes`. -/
theorem pyMin_mem (l : List Nat) (h : l ≠ []) : pyMin l ∈ l := by
  cases l with
  | nil => exact absurd rfl h
  | cons a t => exact foldl_min_mem t a

/-- `min(sizes)` is below every element of `sizes`. -/
theorem pyMin_le (l : List Nat) (h : l ≠ []) : ∀ x ∈ l, pyMin l ≤ x := by
  cases l with
  | nil => exact absurd rfl h
  | cons a t =>
    intro x hx
    rcases List.mem_cons.mp hx with h1 | h2
    · rw [h1]; exact foldl_min_le_init t a
    · exact foldl_min_le_mem t a x h2

/-- The chosen rank is a valid index. -/
theorem chooseRank_lt (l : List Nat) (h : l ≠ []) : chooseRank l < l.length := by
  apply List.findIdx_lt_length_of_exists
  exact ⟨pyMin l, pyMin_mem l h, by simp⟩

/-- `findIdx` only depends on the predicate's values on the list. -/
theorem findIdx_congr (p q : Nat → Bool) :
    ∀ (l : List Nat), (∀ x ∈ l, p x = q x) → l.findIdx p = l.findIdx q := by
  intro l
  induction l with
  | nil => intro _; rfl
  | cons a t ih =>
    intro h
    rw [List.findIdx_cons, List.findIdx_cons, h a (List.mem_cons_self a t),
      ih (fun x hx => h x (List.mem_cons_of_mem a hx))]

/-- `sizes.index(min(sizes))` IS the first rank index whose weight is below
every rank's weight: the source's tie-break-by-lowest-rank chooser equals
the spec's description of it. -/
theorem chooseRank_eq_specMinRank (l : List Nat) (h : l ≠ []) :
    chooseRank l = specMinRank l := by
  unfold chooseRank pyIndex specMinRank
  apply findIdx_congr
  intro x hx
  rw [← Bool.coe_iff_coe]
  simp only [beq_iff_eq, List.all_eq_true, decide_eq_true_eq]
  constructor
  · intro hxm y hy
    rw [hxm]
    exact pyMin_le l h y hy
  · intro hall
    exact Nat.le_antisymm (hall (pyMin l) (pyMin_mem l h)) (pyMin_le l h x hx)

/-- A sum of `n` empty multisets is empty. -/
theorem sum_replicate_zero (n : Nat) : (List.replicate n (0 : Multiset Param)).sum = 0 := by
  induction n with
  | zero => rfl
  | succ n ih => simp [List.replicate_succ, ih]

/-- Unfolding of `msum` on a cons cell. -/
theorem msum_cons (a : List Param) (t : List (List Param)) :
    msum (a :: t) = (a : Multiset Param) + msum t := by
  simp [msum]

/-- List-to-multiset coercion after appending one element. -/
theorem coe_append_singleton (a : List Param) (p : Param) :
    ((a ++ [p] : List Param) : Multiset Param) = (a : Multiset Param) + {p} := by
  rw [← Multiset.coe_singleton, Multiset.coe_add]

/-- The combined multiset of `n` empty rank lists is empty. -/
theorem msum_replicate_nil (n : Nat) :
    msum (List.replicate n ([] : List Param)) = 0 := by
  induction n with
  | zero => rfl
  | succ n ih =>
    rw [List.replicate_succ, msum_cons, ih]
    simp [Multiset.coe_nil]

/-- Unfolding of `rankMsum` on a cons cell. -/
theorem rankMsum_cons (rgs : List HGroup) (acc : List (List HGroup)) :
    rankMsum (rgs :: acc)
      = ((((rgs.map (·.params)).flatten : List Param) : Multiset Param)) + rankMsum acc := by
  simp [rankMsum]

/-- Appending one parameter to the `r`-th rank list adds exactly that
parameter to the combined multiset. -/
theorem msum_set_append :
    ∀ (ls : List (List Param)) (r : Nat) (p : Param), r < ls.length →
      msum (ls.set r ((ls.getD r []) ++ [p])) = msum ls + {p} := by
  intro ls
  induction ls with
  | nil => intro r p hr; simp at hr
  | cons a t ih =>
    intro r p hr
    cases r with
    | zero =>
      rw [List.getD_cons_zero, List.set_cons_zero, msum_cons, msum_cons,
        coe_append_singleton]
      simp [add_comm, add_left_comm, add_assoc]
    | succ r =>
      have hr2 : r < t.length := by simpa using hr
      rw [List.getD_cons_succ, List.set_cons_succ, msum_cons, msum_cons, ih r p hr2]
      simp [add_comm, add_left_comm, add_assoc]

/-- The inner parameter loop of `partition_parameters`: folding a group's
parameters through the greedy step adds exactly those parameters to the
per-rank lists, and preserves the list shapes. -/
theorem assignFold_props (ws : Nat) :
    ∀ (ps : List Param) (acc : PartAcc),
      acc.sizes.length = ws → acc.lists.length = ws → 0 < ws →
      msum (ps.foldl assignParam acc).lists = msum acc.lists + (ps : Multiset Param)
      ∧ (ps.foldl assignParam acc).sizes.length = ws
      ∧ (ps.foldl assignParam acc).lists.length = ws := by
  intro ps
  induction ps with
  | nil =>
    intro acc h1 h2 h3
    refine ⟨?_, h1, h2⟩
    simp [Multiset.coe_nil]
  | cons p ps ih =>
    intro acc h1 h2 h3
    have hne : acc.sizes ≠ [] := List.ne_nil_of_length_pos (h1 ▸ h3)
    have hr : chooseRank acc.sizes < acc.lists.length := by
      rw [h2, ← h1]; exact chooseRank_lt acc.sizes hne
    have hstep : msum (assignParam acc p).lists = msum acc.lists + {p} := by
      unfold assignParam
      exact msum_set_append acc.lists (chooseRank acc.sizes) p hr
    have hs1 : (assignParam acc p).sizes.length = ws := by
      simp [assignParam, h1]
    have hs2 : (assignParam acc p).lists.length = ws := by
      simp [assignParam, h2]
    have hrec := ih (assignParam acc p) hs1 hs2 h3
    refine ⟨?_, hrec.2.1, hrec.2.2⟩
    rw [List.foldl_cons, hrec.1, hstep, ← Multiset.cons_coe, ← Multiset.singleton_add]
    simp [add_comm, add_left_comm, add_assoc]

/-- `appendGroupToRanks` preserves the number of ranks. -/
theorem appendGroupToRanks_length (hy : List (String × Int)) :
    ∀ (acc : List (List HGroup)) (ls : List (List Param)),
      (appendGroupToRanks hy acc ls).length = acc.length := by
  intro acc
  induction acc with
  | nil => intro ls; cases ls <;> rfl
  | cons a t ih =>
    intro ls
    cases ls with
    | nil => rfl
    | cons l ls => simp [appendGroupToRanks, ih ls]

/-- Appending a group's per-rank slices adds exactly the group's combined
multiset to the partition's combined multiset. -/
theorem rankMsum_appendGroupToRanks (hy : List (String × Int)) :
    ∀ (acc : List (List HGroup)) (ls : List (List Param)), acc.length = ls.length →
      rankMsum (appendGroupToRanks hy acc ls) = rankMsum acc + msum ls := by
  intro acc
  induction acc with
  | nil =>
    intro ls h
    have : ls = [] := by
      cases ls with
      | nil => rfl
      | cons l ls => simp at h
    subst this
    simp [appendGroupToRanks, rankMsum, msum]
  | cons a t ih =>
    intro ls h
    cases ls with
    | nil => simp at h
    | cons l ls =>
      have h2 : t.length = ls.length := by simpa using h
      have hcons1 : rankMsum ((a ++ [HGroup.mk hy l]) :: appendGroupToRanks hy t ls)
          = ((((a ++ [HGroup.mk hy l]).map (·.params)).flatten : List Param) : Multiset Param)
            + rankMsum (appendGroupToRanks hy t ls) := by
        simp [rankMsum]
      have hcons2 : rankMsum (a :: t)
          = (((a.map (·.params)).flatten : List Param) : Multiset Param) + rankMsum t := by
        simp [rankMsum]
      have hflat : (((a ++ [HGroup.mk hy l]).map (·.params)).flatten : List Param)
          = ((a.map (·.params)).flatten : List Param) ++ l := by
        simp
      show rankMsum ((a ++ [HGroup.mk hy l]) :: appendGroupToRanks hy t ls) = _
      rw [hcons1, hcons2, ih ls h2, hflat, ← Multiset.coe_add, msum_cons]
      simp [add_comm, add_left_comm, add_assoc]

/-- The outer group loop of `partition_parameters` accumulates exactly the
parameters of the processed groups. -/
theorem partitionAux_rankMsum :
    ∀ (gs : List HGroup) (acc : List (List HGroup)) (sizes : List Nat),
      0 < sizes.length → acc.length = sizes.length →
      rankMsum (partitionAux gs acc sizes)
        = rankMsum acc + (((gs.map (·.params)).flatten : List Param) : Multiset Param) := by
  intro gs
  induction gs with
  | nil =>
    intro acc sizes h1 h2
    simp [partitionAux, Multiset.coe_nil]
  | cons g gs ih =>
    intro acc sizes h1 h2
    have hfold := assignFold_props sizes.length g.params
      ⟨List.replicate sizes.length [], sizes⟩ rfl (by simp) h1
    simp only [partitionAux]
    have hlen : (appendGroupToRanks g.hyper acc
        (g.params.foldl assignParam ⟨List.replicate sizes.length [], sizes⟩).lists).length
        = (g.params.foldl assignParam ⟨List.replicate sizes.length [], sizes⟩).sizes.length := by
      rw [appendGroupToRanks_length, hfold.2.1, h2]
    have hpos : 0 < (g.params.foldl assignParam
        ⟨List.replicate sizes.length [], sizes⟩).sizes.length := by
      rw [hfold.2.1]; exact h1
    rw [ih _ _ hpos hlen]
    rw [rankMsum_appendGroupToRanks g.hyper acc _ (by rw [hfold.2.2, h2])]
    have hmsum : msum (g.params.foldl assignParam
        ⟨List.replicate sizes.length [], sizes⟩).lists = (g.params : Multiset Param) := by
      rw [hfold.1, msum_replicate_nil, zero_add]
    rw [hmsum]
    have : (((g :: gs).map (·.params)).flatten : List Param)
        = g.params ++ ((gs.map (·.params)).flatten : List Param) := by
      simp
    rw [this, ← Multiset.coe_add]
    simp [add_comm, add_left_comm, add_assoc]

/-- The combined multiset of the empty partition is empty. -/
theorem rankMsum_replicate_nil (ws : Nat) :
    rankMsum (List.replicate ws ([] : List HGroup)) = 0 := by
  induction ws with
  | zero => rfl
  | succ n ih =>
    rw [List.replicate_succ, rankMsum_cons, ih]
    simp [Multiset.coe_nil]

/-- Shared form of the exact-cover fact, used by several results below. -/
theorem partition_cover_aux (ws : Nat) (groups : List HGroup) (h : 0 < ws) :
    rankMsum (partition_parameters ws groups)
      = (((groups.map (·.params)).flatten : List Param) : Multiset Param) := by
  unfold partition_parameters
  rw [partitionAux_rankMsum groups (List.replicate ws []) (List.replicate ws 0)
    (by simpa using h) (by simp)]
  rw [rankMsum_replicate_nil, zero_add]

/-- C2: for every group list and world size ≥ 1, the multiset union over
all ranks of the parameters assigned by `partition_parameters` equals the
input parameter multiset exactly — every input parameter lands in exactly
one rank's partition and no rank holds a parameter that was not in the
input. -/
theorem partition_is_exact_cover (ws : Nat) (groups : List HGroup) (h : 0 < ws) :
    rankMsum (partition_parameters ws groups)
      = (((groups.map (·.params)).flatten : List Param) : Multiset Param) :=
  partition_cover_aux ws groups h

/-- C2 witness: the repository's `test_sharding` parameter set (sizes
`[5, 4, 2, 6, 4, 3]`, world size 3) is covered exactly once. -/
theorem partition_is_exact_cover_witness :
    (0 < 3)
  ∧ rankMsum (partition_parameters 3 exShardingGroups)
      = (((exShardingGroups.map (·.params)).flatten : List Param) : Multiset Param) :=
  ⟨by decide, partition_is_exact_cover 3 exShardingGroups (by decide)⟩

/-- One greedy step of the source equals one greedy step of the spec. -/
theorem assignParam_eq_spec (acc : PartAcc) (p : Param) (h : acc.sizes ≠ []) :
    assignParam acc p = assignParamSpec acc p := by
  simp only [assignParam, assignParamSpec, chooseRank_eq_specMinRank acc.sizes h]

/-- The inner fold of the source equals the inner fold of the spec and
preserves the weight-vector length. -/
theorem assignFold_eq_spec :
    ∀ (ps : List Param) (acc : PartAcc), acc.sizes ≠ [] →
      ps.foldl assignParam acc = ps.foldl assignParamSpec acc
      ∧ (ps.foldl assignParam acc).sizes.length = acc.sizes.length := by
  intro ps
  induction ps with
  | nil => intro acc h; exact ⟨rfl, rfl⟩
  | cons p ps ih =>
    intro acc h
    have hlen : (assignParam acc p).sizes.length = acc.sizes.length := by
      simp [assignParam]
    have hne : (assignParam acc p).sizes ≠ [] := by
      apply List.ne_nil_of_length_pos
      rw [hlen]
      exact List.length_pos.mpr h
    have hrec := ih (assignParam acc p) hne
    refine ⟨?_, by rw [List.foldl_cons, hrec.2, hlen]⟩
    rw [List.foldl_cons, List.foldl_cons, ← assignParam_eq_spec acc p h, hrec.1]

/-- The outer loop of the source equals the outer loop of the spec. -/
theorem partitionAux_eq_spec :
    ∀ (gs : List HGroup) (acc : List (List HGroup)) (sizes : List Nat), sizes ≠ [] →
      partitionAux gs acc sizes = partitionSpecAux gs acc sizes := by
  intro gs
  induction gs with
  | nil => intro acc sizes h; rfl
  | cons g gs ih =>
    intro acc sizes h
    simp only [partitionAux, partitionSpecAux]
    have hfold := assignFold_eq_spec g.params ⟨List.replicate sizes.length [], sizes⟩ h
    rw [← hfold.1]
    have hne : (g.params.foldl assignParam
        ⟨List.replicate sizes.length [], sizes⟩).sizes ≠ [] := by
      apply List.ne_nil_of_length_pos
      rw [hfold.2]
      exact List.length_pos.mpr h
    exact ih _ _ hne

/-- C3: `partition_parameters` is exactly the spec's greedy procedure —
walking each group's parameters in order with one running weight per rank
carried across groups (a trainable parameter adds its element count, a
frozen one adds 1), each parameter goes to the first rank of currently
minimal weight (`partitionSpec`, written from the spec's words); both are
deterministic functions of the ordered input and the world size. -/
theorem partition_matches_greedy_spec (ws : Nat) (groups : List HGroup) (h : 0 < ws) :
    partition_parameters ws groups = partitionSpec ws groups := by
  unfold partition_parameters partitionSpec
  apply partitionAux_eq_spec
  apply List.ne_nil_of_length_pos
  simpa using h

/-- C3 witness: the greedy refinement at the `test_sharding` input. -/
theorem partition_matches_greedy_spec_witness :
    (0 < 3) ∧ partition_parameters 3 exShardingGroups = partitionSpec 3 exShardingGroups :=
  ⟨by decide, partition_matches_greedy_spec 3 exShardingGroups (by decide)⟩

/-- `msum` is the multiset of the flattened lists. -/
theorem msum_eq_coe_flatten :
    ∀ (ls : List (List Param)), msum ls = ((ls.flatten : List Param) : Multiset Param) := by
  intro ls
  induction ls with
  | nil => simp [msum, Multiset.coe_nil]
  | cons a t ih => rw [msum_cons, ih, List.flatten_cons, ← Multiset.coe_add]

/-- `rankMsum` through `msum` of the per-rank flattened parameter lists. -/
theorem rankMsum_eq (acc : List (List HGroup)) :
    rankMsum acc = msum (acc.map (fun rgs => (rgs.map (·.params)).flatten)) := by
  induction acc with
  | nil => rfl
  | cons a t ih => rw [rankMsum_cons, List.map_cons, msum_cons, ih]

/-- The key list of `param_to_rank` in source insertion order. -/
theorem paramToRankList_fst (ws : Nat) (groups : List HGroup) :
    (paramToRankList ws groups).map (·.1)
      = ((partition_parameters ws groups).map
          (fun rgs => (rgs.map (·.params)).flatten)).flatten := by
  unfold paramToRankList
  rw [List.map_flatten, List.map_map]
  congr 1
  have h1 : ((fun x => x.map (·.1))
        ∘ (fun (e : Nat × List HGroup) =>
            ((e.2.map (·.params)).flatten.map (fun p => (p, e.1)))))
      = (fun (e : Nat × List HGroup) => (e.2.map (·.params)).flatten) := by
    funext e
    show (((e.2.map (·.params)).flatten.map (fun p => (p, e.1))).map (fun x => x.1))
        = (e.2.map (·.params)).flatten
    rw [List.map_map]
    exact List.map_id _
  rw [h1]
  rw [show (fun (e : Nat × List HGroup) => ((e.2.map (·.params)).flatten))
      = (fun (rgs : List HGroup) => (rgs.map (·.params)).flatten) ∘ Prod.snd from rfl,
    ← List.map_map, List.enum_map_snd]

/-- Partitioning permutes the input parameter list (rank-major flatten). -/
theorem partition_flatten_perm (ws : Nat) (groups : List HGroup) (h : 0 < ws) :
    (((partition_parameters ws groups).map
        (fun rgs => (rgs.map (·.params)).flatten)).flatten).Perm
      ((groups.map (·.params)).flatten) := by
  apply Multiset.coe_eq_coe.mp
  rw [← msum_eq_coe_flatten, ← rankMsum_eq]
  exact partition_cover_aux ws groups h

/-- Inserting keys of a duplicate-free association list into an empty dict
keeps them all, in order. -/
theorem dictKeysParams_aux :
    ∀ (l : List (Param × Nat)) (acc : List Param), (acc ++ l.map (·.1)).Nodup →
      l.foldl (fun acc e => if e.1 ∈ acc then acc else acc ++ [e.1]) acc
        = acc ++ l.map (·.1) := by
  intro l
  induction l with
  | nil => intro acc _; simp
  | cons e t ih =>
    intro acc h
    have hne : e.1 ∉ acc := by
      intro hmem
      have hd := (List.nodup_append.mp h).2.2
      exact hd hmem (List.mem_cons_self e.1 _)
    rw [List.foldl_cons, if_neg hne]
    have h2 : ((acc ++ [e.1]) ++ t.map (·.1)).Nodup := by
      simpa [List.append_assoc] using h
    rw [ih (acc ++ [e.1]) h2]
    simp [List.append_assoc]

/-- When the parameters are pairwise distinct, the `param_to_rank` dict
keys are exactly the inserted parameters, in insertion order. -/
theorem dictKeysParams_of_nodup (l : List (Param × Nat)) (h : (l.map (·.1)).Nodup) :
    dictKeysParams l = l.map (·.1) := by
  unfold dictKeysParams
  have := dictKeysParams_aux l [] (by simpa using h)
  simpa using this

/-- C4 (amended): the bucket capacity is the minimum of the configured
maximum and the total element count of ALL parameters — `model_size` sums
`numel` over every key of `param_to_rank`, so non-trainable parameters do
contribute to the bound (contra the original claim). -/
theorem bucket_capacity_is_min_of_total (cfg ws : Nat) (groups : List HGroup)
    (h : 0 < ws) (hnd : ((groups.map (·.params)).flatten).Nodup) :
    bucketSizeOf cfg ws groups = min cfg (totalSizeOf groups) := by
  have hperm := partition_flatten_perm ws groups h
  have hnd2 : ((paramToRankList ws groups).map (·.1)).Nodup := by
    rw [paramToRankList_fst]
    exact hperm.nodup_iff.mpr hnd
  unfold bucketSizeOf modelSizeOf totalSizeOf
  rw [dictKeysParams_of_nodup _ hnd2, paramToRankList_fst]
  congr 1
  exact (hperm.map (·.numel)).sum_eq

/-- C4 witness for the amended statement: the counterexample input has
distinct parameters, and the capacity equals `min 100 8 = 8` — the total
over all parameters. -/
theorem bucket_capacity_is_min_of_total_witness :
    (0 < 1) ∧ (((exC4Groups.map (·.params)).flatten).Nodup)
  ∧ bucketSizeOf 100 1 exC4Groups = min 100 (totalSizeOf exC4Groups) :=
  ⟨by decide, by decide,
    bucket_capacity_is_min_of_total 100 1 exC4Groups (by decide) (by decide)⟩

/-- Draining pops every pending handle: the queue is empty afterwards. -/
theorem consumeWorkHandles_eq_nil : ∀ (l : List WorkItem), consumeWorkHandles l = [] := by
  intro l
  induction l with
  | nil => rfl
  | cons a t ih => rw [consumeWorkHandles, ih]

/-- Lookup on a cons cell of a string dict. -/
theorem dictGet?_cons (kv : String × Int) (t : List (String × Int)) (k : String) :
    dictGet? (kv :: t) k = if kv.1 == k then some kv.2 else dictGet? t k := by
  by_cases h : kv.1 == k <;> simp [dictGet?, List.find?_cons, h]

/-- A key absent from a dict looks up to `none`. -/
theorem dictGet?_eq_none_of_not_mem (d : List (String × Int)) (k : String)
    (h : ∀ kv ∈ d, kv.1 ≠ k) : dictGet? d k = none := by
  unfold dictGet?
  rw [List.find?_eq_none.mpr]
  · rfl
  · intro kv hkv
    simp [h kv hkv]

/-- Setting a key then reading it gives the new value. -/
theorem dictGet?_dictSet_self (d : List (String × Int)) (k : String) (v : Int) :
    dictGet? (dictSet d k v) k = some v := by
  unfold dictSet
  by_cases hf : (d.find? (fun e => e.1 == k)).isSome
  · rw [if_pos hf]
    obtain ⟨e0, he0⟩ := Option.isSome_iff_exists.mp hf
    have hcomp : ((fun (e : String × Int) => e.1 == k)
        ∘ (fun (e : String × Int) => if e.1 == k then (k, v) else e))
        = (fun (e : String × Int) => e.1 == k) := by
      funext e
      by_cases h : e.1 == k <;> simp [Function.comp, h]
    unfold dictGet?
    rw [List.find?_map, hcomp, he0]
    have hk0 := List.find?_some he0
    have hk : e0.1 = k := by simpa using hk0
    simp [hk]
  · rw [if_neg hf]
    unfold dictGet?
    rw [List.find?_append]
    rw [Option.not_isSome_iff_eq_none.mp hf]
    simp

/-- Setting one key leaves every other key's lookup unchanged. -/
theorem dictGet?_dictSet_ne (d : List (String × Int)) (k : String) (v : Int) (k2 : String)
    (h : k2 ≠ k) : dictGet? (dictSet d k v) k2 = dictGet? d k2 := by
  unfold dictSet
  by_cases hf : (d.find? (fun e => e.1 == k)).isSome
  · rw [if_pos hf]
    have hcomp : ((fun (e : String × Int) => e.1 == k2)
        ∘ (fun (e : String × Int) => if e.1 == k then (k, v) else e))
        = (fun (e : String × Int) => e.1 == k2) := by
      funext e
      by_cases hek : e.1 == k
      · have : e.1 = k := by simpa using hek
        simp [Function.comp, hek, this, (by simpa using Ne.symm h : ¬ (k = k2))]
      · simp [Function.comp, hek]
    unfold dictGet?
    rw [List.find?_map, hcomp]
    cases he : d.find? (fun e => e.1 == k2) with
    | none => simp
    | some e0 =>
      have hk20 := List.find?_some he
      have hk2 : e0.1 = k2 := by simpa using hk20
      have hne : (e0.1 == k) = false := by
        simp [hk2, h]
      simp [hne, hk2, h]
  · rw [if_neg hf]
    unfold dictGet?
    rw [List.find?_append]
    cases he : d.find? (fun e => e.1 == k2) with
    | none =>
      simp only [Option.none_or]
      have : ((k, v).1 == k2) = false := by simpa using Ne.symm h
      simp [List.find?, this]
    | some e0 => simp

/-- `dictSet` never removes a key. -/
theorem dictSet_keeps_key (d : List (String × Int)) (k0 : String) (v : Int) (k1 : String)
    (h : (d.find? (fun e => e.1 == k1)).isSome) :
    ((dictSet d k0 v).find? (fun e => e.1 == k1)).isSome := by
  unfold dictSet
  by_cases hf : (d.find? (fun e => e.1 == k0)).isSome
  · rw [if_pos hf]
    have hcomp : ((fun (e : String × Int) => e.1 == k1)
        ∘ (fun (e : String × Int) => if e.1 == k0 then (k0, v) else e))
        = (fun (e : String × Int) => e.1 == k1) := by
      funext e
      by_cases hek : e.1 == k0
      · have he : e.1 = k0 := by simpa using hek
        simp [hek, he]
      · have he2 : ¬(e.1 = k0) := by simpa using hek
        simp [hek, he2]
    rw [List.find?_map, hcomp]
    obtain ⟨e0, he0⟩ := Option.isSome_iff_exists.mp h
    rw [he0]
    rfl
  · rw [if_neg hf, List.find?_append]
    obtain ⟨e0, he0⟩ := Option.isSome_iff_exists.mp h
    rw [he0]
    rfl

/-- Unfolding of the local→global key copy on a cons cell. -/
theorem syncUpGroup_cons (g : List (String × Int)) (kv : String × Int)
    (t : List (String × Int)) :
    syncUpGroup g (kv :: t)
      = syncUpGroup (if kv.1 == "params" then g else dictSet g kv.1 kv.2) t := by
  unfold syncUpGroup
  rw [List.foldl_cons]

/-- Lookup after the local→global key copy: a non-`"params"` key reads the
local value when the local group has the key, and the untouched global
value otherwise. -/
theorem syncUpGroup_get (k : String) (hk : k ≠ "params") :
    ∀ (l g : List (String × Int)), (l.map Prod.fst).Nodup →
      dictGet? (syncUpGroup g l) k = (dictGet? l k).or (dictGet? g k) := by
  intro l
  induction l with
  | nil =>
    intro g _
    simp [syncUpGroup, dictGet?]
  | cons kv t ih =>
    intro g hnd
    have hnd2 : (t.map Prod.fst).Nodup := by
      rw [List.map_cons] at hnd
      exact (List.nodup_cons.mp hnd).2
    have hnotin : kv.1 ∉ t.map Prod.fst := by
      rw [List.map_cons] at hnd
      exact (List.nodup_cons.mp hnd).1
    rw [syncUpGroup_cons]
    by_cases hp : kv.1 == "params"
    · rw [if_pos hp, ih g hnd2, dictGet?_cons]
      have hkv : (kv.1 == k) = false := by
        have hp2 : kv.1 = "params" := by simpa using hp
        simp [hp2, Ne.symm hk]
      rw [hkv]
      rfl
    · rw [if_neg hp, ih (dictSet g kv.1 kv.2) hnd2, dictGet?_cons]
      by_cases hkk : kv.1 == k
      · have hkk2 : kv.1 = k := by simpa using hkk
        have htnone : dictGet? t k = none := by
          apply dictGet?_eq_none_of_not_mem
          intro e he hek
          exact hnotin (hkk2 ▸ hek ▸ List.mem_map_of_mem Prod.fst he)
        rw [hkk, htnone, hkk2, dictGet?_dictSet_self]
        simp
      · rw [Bool.not_eq_true] at hkk
        have hkk2 : k ≠ kv.1 := by
          intro hcon
          rw [hcon] at hkk
          simp at hkk
        rw [hkk, dictGet?_dictSet_ne g kv.1 kv.2 k hkk2]
        simp

/-- The step function of the global→local key sync
(`_sync_param_groups(local_to_global=False)`). -/
def syncDownStep (g : List (String × Int)) (acc : List (String × Int))
    (kv : String × Int) : List (String × Int) :=
  if kv.1 == "params" then acc
  else match dictGet? g kv.1 with
    | some v => dictSet acc kv.1 v
    | none => acc

/-- `syncDownGroup` is the fold of `syncDownStep` over the local entries. -/
theorem syncDownGroup_eq_fold (g l : List (String × Int)) :
    syncDownGroup g l = l.foldl (syncDownStep g) l := by
  unfold syncDownGroup syncDownStep
  rfl

/-- Lookup after folding the global→local sync steps: a key present in the
iterated entries, different from `"params"` and present in the global dict
reads the global value; any other key reads the accumulator. -/
theorem syncDownFold_get (g : List (String × Int)) (k : String) :
    ∀ (es acc : List (String × Int)),
      (∀ kv ∈ es, (acc.find? (fun e => e.1 == kv.1)).isSome) →
      dictGet? (es.foldl (syncDownStep g) acc) k
        = if (es.any (fun kv => kv.1 == k)) ∧ k ≠ "params" ∧ (dictGet? g k).isSome
          then dictGet? g k else dictGet? acc k := by
  intro es
  induction es with
  | nil =>
    intro acc _
    simp
  | cons kv t ih =>
    intro acc hpre
    have hprehead : (acc.find? (fun e => e.1 == kv.1)).isSome :=
      hpre kv (List.mem_cons_self kv t)
    rw [List.foldl_cons]
    by_cases hp : kv.1 == "params"
    · have hstep : syncDownStep g acc kv = acc := by
        unfold syncDownStep
        rw [if_pos hp]
      rw [hstep, ih acc (fun e he => hpre e (List.mem_cons_of_mem kv he))]
      by_cases hkk : kv.1 == k
      · have hkp : k = "params" := by
          have h1 : kv.1 = k := by simpa using hkk
          have h2 : kv.1 = "params" := by simpa using hp
          rw [← h1, h2]
        simp [hkp]
      · rw [Bool.not_eq_true] at hkk
        simp only [List.any_cons, hkk, Bool.false_or]
    · cases hg : dictGet? g kv.1 with
      | none =>
        have hstep : syncDownStep g acc kv = acc := by
          unfold syncDownStep
          rw [if_neg hp, hg]
        rw [hstep, ih acc (fun e he => hpre e (List.mem_cons_of_mem kv he))]
        by_cases hkk : kv.1 == k
        · have h1 : kv.1 = k := by simpa using hkk
          rw [← h1, hg]
          simp [List.any_cons, hkk, hg, h1]
        · rw [Bool.not_eq_true] at hkk
          simp only [List.any_cons, hkk, Bool.false_or]
      | some v =>
        have hstep : syncDownStep g acc kv = dictSet acc kv.1 v := by
          unfold syncDownStep
          rw [if_neg hp, hg]
        have hpre2 : ∀ e ∈ t, ((dictSet acc kv.1 v).find? (fun x => x.1 == e.1)).isSome :=
          fun e he => dictSet_keeps_key acc kv.1 v e.1
            (hpre e (List.mem_cons_of_mem kv he))
        rw [hstep, ih (dictSet acc kv.1 v) hpre2]
        by_cases hkk : kv.1 == k
        · have h1 : kv.1 = k := by simpa using hkk
          have hnp : k ≠ "params" := by
            intro hcon
            rw [hcon] at h1
            rw [h1] at hp
            simp at hp
          have hgk : dictGet? g k = some v := by rw [← h1, hg]
          by_cases hany : (t.any (fun kv => kv.1 == k))
          · simp [List.any_cons, hkk, hany, hnp, hgk]
          · have hsetk : dictGet? (dictSet acc kv.1 v) k = some v := by
              rw [← h1]
              exact dictGet?_dictSet_self acc kv.1 v
            simp [List.any_cons, hkk, hany, hnp, hgk, hsetk]
        · rw [Bool.not_eq_true] at hkk
          have h2 : k ≠ kv.1 := by
            intro hcon
            rw [hcon] at hkk
            simp at hkk
          rw [dictGet?_dictSet_ne acc kv.1 v k h2]
          simp only [List.any_cons, hkk, Bool.false_or]

/-- A key with an entry in a dict has a successful `find?`. -/
theorem find?_isSome_of_mem (d : List (String × Int)) (kv : String × Int) (h : kv ∈ d) :
    (d.find? (fun e => e.1 == kv.1)).isSome := by
  rw [List.find?_isSome]
  exact ⟨kv, h, by simp⟩

/-- Lookup in a dict is successful exactly when some entry carries the key. -/
theorem dictGet?_isSome_iff_any (l : List (String × Int)) (k : String) :
    (dictGet? l k).isSome ↔ (l.any (fun kv => kv.1 == k)) = true := by
  unfold dictGet?
  have h1 : (Option.map (fun x => x.2) (l.find? (fun e => e.1 == k))).isSome
      = (l.find? (fun e => e.1 == k)).isSome := by
    cases l.find? (fun e => e.1 == k) <;> rfl
  rw [h1, List.find?_isSome, List.any_eq_true]

/-- Lookup after the global→local key sync of one group pair
(`_sync_param_groups(local_to_global=False)`): every non-`"params"` key of
the local group whose key exists in the global group now reads the global
value; all other keys read the local group unchanged. -/
theorem syncDownGroup_get (g l : List (String × Int)) (k : String) :
    dictGet? (syncDownGroup g l) k
      = match dictGet? l k with
        | none => none
        | some v => some (if k = "params" then v
            else match dictGet? g k with
              | some w => w
              | none => v) := by
  rw [syncDownGroup_eq_fold]
  rw [syncDownFold_get g k l l (fun kv h => find?_isSome_of_mem l kv h)]
  cases hl : dictGet? l k with
  | none =>
    have hany : (l.any (fun kv => kv.1 == k)) = false := by
      rw [← Bool.not_eq_true]
      intro hcon
      have := (dictGet?_isSome_iff_any l k).mpr hcon
      rw [hl] at this
      simp at this
    simp [hany, hl]
  | some v =>
    by_cases hkp : k = "params"
    · simp [hkp, hl]
    · cases hg : dictGet? g k with
      | none => simp [hg, hl, hkp]
      | some w =>
        have hany : (l.any (fun kv => kv.1 == k)) = true :=
          (dictGet?_isSome_iff_any l k).mp (by rw [hl]; rfl)
        simp [hany, hkp, hg, hl]

/-- `getD` through `getElem?`. -/
theorem hgroup_getD_eq_match (ls : List HGroup) (i : Nat) :
    ls.getD i ⟨[], []⟩ = match ls[i]? with | none => ⟨[], []⟩ | some x => x := by
  rw [List.getD_eq_getElem?_getD]
  cases ls[i]? <;> rfl

/-- In-range `getElem?` through `getD`. -/
theorem hgroup_getElem?_eq_some (ls : List HGroup) (i : Nat) (h : i < ls.length) :
    ls[i]? = some (ls.getD i ⟨[], []⟩) := by
  rw [List.getD_eq_getElem?_getD]
  cases hx : ls[i]? with
  | none => rw [List.getElem?_eq_none_iff] at hx; omega
  | some a => rfl

/-- Indexed description of the global→local sync over zipped group lists:
zipped pairs are synced, locals beyond the globals are untouched, and the
result has the locals' length. -/
theorem syncDownGroups_getD :
    ∀ (gs ls : List HGroup) (i : Nat),
      (syncDownGroups gs ls).getD i ⟨[], []⟩
        = match ls[i]?, gs[i]? with
          | none, _ => ⟨[], []⟩
          | some l, some g => ⟨syncDownGroup g.hyper l.hyper, l.params⟩
          | some l, none => l := by
  intro gs
  induction gs with
  | nil =>
    intro ls i
    cases ls with
    | nil => simp [syncDownGroups, List.getElem?_nil]
    | cons l ls2 =>
      show (l :: ls2).getD i ⟨[], []⟩ = _
      rw [hgroup_getD_eq_match]
      cases hx : (l :: ls2)[i]? <;> rfl
  | cons g gs2 ih =>
    intro ls i
    cases ls with
    | nil => simp [syncDownGroups, List.getElem?_nil]
    | cons l ls2 =>
      show ({ l with hyper := syncDownGroup g.hyper l.hyper } :: syncDownGroups gs2 ls2).getD
          i ⟨[], []⟩ = _
      cases i with
      | zero => simp [List.getElem?_cons_zero, List.getD_cons_zero]
      | succ i =>
        simp only [List.getElem?_cons_succ, List.getD_cons_succ, ih ls2 i]

/-- Indexed description of the local→global sync over zipped group lists:
zipped pairs are synced, globals beyond the locals are untouched, and the
result has the globals' length. -/
theorem syncUpGroups_getD :
    ∀ (gs ls : List HGroup) (i : Nat),
      (syncUpGroups gs ls).getD i ⟨[], []⟩
        = match gs[i]?, ls[i]? with
          | none, _ => ⟨[], []⟩
          | some g, some l => ⟨syncUpGroup g.hyper l.hyper, g.params⟩
          | some g, none => g := by
  intro gs
  induction gs with
  | nil =>
    intro ls i
    simp [syncUpGroups, List.getElem?_nil]
  | cons g gs2 ih =>
    intro ls i
    cases ls with
    | nil =>
      show (g :: gs2).getD i ⟨[], []⟩ = _
      rw [hgroup_getD_eq_match]
      cases hx : (g :: gs2)[i]? <;> rfl
    | cons l ls2 =>
      show ({ g with hyper := syncUpGroup g.hyper l.hyper } :: syncUpGroups gs2 ls2).getD
          i ⟨[], []⟩ = _
      cases i with
      | zero => simp [List.getElem?_cons_zero, List.getD_cons_zero]
      | succ i =>
        simp only [List.getElem?_cons_succ, List.getD_cons_succ, ih ls2 i]

/-- C8: `step(closure)` (with the wrapped local optimizer `f` abstract)
returns exactly the loss produced by the local optimizer, unchanged; the
work-handle queue is fully drained when `step` returns; the local
optimizer runs on groups that first received, for every non-`"params"`
key the local groups hold, the public group's value when the public group
has that key (global→local sync); the local optimizer's resulting groups
are kept; and afterwards every non-`"params"` key of the local groups has
been copied back into the matching public group, leaving other public
keys unchanged (local→global sync). -/
theorem step_contract {σ L : Type} (ws : Nat) (gro : Nat → Nat)
    (f : σ → List HGroup → σ × List HGroup × L) (s : FacadeState) (st0 : σ)
    (queue : List WorkItem)
    (hnd : ∀ l ∈ (f st0 (syncDownGroups s.paramGroups s.optimGroups)).2.1,
      (l.hyper.map Prod.fst).Nodup) :
    (stepOSS ws gro f s st0 queue).2.2.1
        = (f st0 (syncDownGroups s.paramGroups s.optimGroups)).2.2
  ∧ (stepOSS ws gro f s st0 queue).2.2.2 = []
  ∧ (stepOSS ws gro f s st0 queue).1.optimGroups
        = (f st0 (syncDownGroups s.paramGroups s.optimGroups)).2.1
  ∧ (∀ i k, i < s.optimGroups.length → i < s.paramGroups.length →
      dictGet? (((syncDownGroups s.paramGroups s.optimGroups).getD i ⟨[], []⟩).hyper) k
        = match dictGet? ((s.optimGroups.getD i ⟨[], []⟩).hyper) k with
          | none => none
          | some v => some (if k = "params" then v
              else match dictGet? ((s.paramGroups.getD i ⟨[], []⟩).hyper) k with
                | some w => w
                | none => v))
  ∧ (∀ i k, i < s.paramGroups.length → k ≠ "params" →
      dictGet? (((stepOSS ws gro f s st0 queue).1.paramGroups.getD i ⟨[], []⟩).hyper) k
        = match (f st0 (syncDownGroups s.paramGroups s.optimGroups)).2.1[i]? with
          | some l => (dictGet? l.hyper k).or
              (dictGet? ((s.paramGroups.getD i ⟨[], []⟩).hyper) k)
          | none => dictGet? ((s.paramGroups.getD i ⟨[], []⟩).hyper) k) := by
  refine ⟨rfl, consumeWorkHandles_eq_nil _, rfl, ?_, ?_⟩
  · intro i k hi hg
    rw [syncDownGroups_getD, hgroup_getElem?_eq_some s.optimGroups i hi,
      hgroup_getElem?_eq_some s.paramGroups i hg]
    exact syncDownGroup_get ((s.paramGroups.getD i ⟨[], []⟩)).hyper
      ((s.optimGroups.getD i ⟨[], []⟩)).hyper k
  · intro i k hi hk
    show dictGet? (((syncUpGroups s.paramGroups
        (f st0 (syncDownGroups s.paramGroups s.optimGroups)).2.1).getD i ⟨[], []⟩).hyper) k
        = _
    rw [syncUpGroups_getD, hgroup_getElem?_eq_some s.paramGroups i hi]
    cases hl : (f st0 (syncDownGroups s.paramGroups s.optimGroups)).2.1[i]? with
    | none => rfl
    | some l =>
      have hmem : l ∈ (f st0 (syncDownGroups s.paramGroups s.optimGroups)).2.1 := by
        obtain ⟨hlt, hx⟩ := List.getElem?_eq_some_iff.mp hl
        exact hx ▸ List.getElem_mem hlt
      exact syncUpGroup_get k hk l.hyper ((s.paramGroups.getD i ⟨[], []⟩)).hyper (hnd l hmem)

/-- C8 witness: a one-group wrapper whose abstract local optimizer bumps a
counter, adds a `"new_key"` entry and returns loss 7; the conclusions of
the step contract hold at this input, in particular the pending handle is
drained and the loss comes back unchanged. -/
theorem step_contract_witness :
    (∀ l ∈ (exStepF 0 (syncDownGroups exStepState.paramGroups exStepState.optimGroups)).2.1,
        (l.hyper.map Prod.fst).Nodup)
  ∧ (stepOSS 1 (fun r => r) exStepF exStepState 0 [WorkItem.direct 0 0]).2.2.2 = []
  ∧ (stepOSS 1 (fun r => r) exStepF exStepState 0 [WorkItem.direct 0 0]).2.2.1
      = (exStepF 0 (syncDownGroups exStepState.paramGroups exStepState.optimGroups)).2.2 :=
  ⟨by decide,
    (step_contract 1 (fun r => r) exStepF exStepState 0 [WorkItem.direct 0 0] (by decide)).2.1,
    (step_contract 1 (fun r => r) exStepF exStepState 0 [WorkItem.direct 0 0] (by decide)).1⟩

end FairscaleOSS
